import Mathlib

/-!
Shallow embedding of the canonical LR(1) parser generator
(grammar.rs, token.rs, item.rs, table.rs, panic.rs) and proofs about it.

Conventions of the embedding:
* `Terminal` and `NonTerminal` idents are `String`s; `Tok` mirrors `Token`.
* Rust `BTreeSet`s are represented as lists kept sorted (and deduplicated)
  with respect to the corresponding `cmp*` comparator, inserted with
  `insSorted`; `BTreeSet` iteration order is then plain list order.
* Rust `HashSet<Terminal>` first sets are represented as sorted lists as
  well: only membership, extension and conversion to `BTreeSet` are ever
  observed, so the canonical sorted representation is faithful.
* `HashSet<&Production>` iteration order (`Grammar::prods_of`) is
  unspecified in Rust; it is modelled by an explicit order oracle
  `po : String → List Production → List Production` applied to the
  deduplicated filter result (insertion order when `po` is `orderInsertion`).
* The `RefCell` FIRST-set cache of `Grammar` is threaded explicitly as a
  `FirstCache` value through every operation that can touch it.
* Rust recursion/loops that terminate for non-obvious reasons take fuel;
  exhaustion yields the error `Err.fuelOut`, which a real execution never
  produces when the fuel is large enough.  Rust `unwrap`/panic paths are
  modelled as the error `Err.modelPanic`.
-/

namespace LR

/-- Token of the grammar: a terminal or a non-terminal, each identified by
its ident string (token.rs `Token`). -/
inductive Tok where
  | term : String → Tok
  | nonterm : String → Tok
deriving DecidableEq, Repr

/-- Ident of the distinguished ε terminal (token.rs `EPSILON`). -/
def epsT : String := "E"

/-- Ident of the distinguished EOF terminal (token.rs `EOF`). -/
def eofT : String := "eof"

/-- Byte-wise comparison of char lists (Rust `str` ordering; all idents in
this development are ASCII, where code-point order equals byte order). -/
def cmpChars : List Char → List Char → Ordering
  | [], [] => .eq
  | [], _ :: _ => .lt
  | _ :: _, [] => .gt
  | a :: as, b :: bs =>
    if a.toNat < b.toNat then .lt
    else if b.toNat < a.toNat then .gt
    else cmpChars as bs

/-- Rust `str::cmp`. -/
def cmpStr (a b : String) : Ordering := cmpChars a.data b.data

/-- token.rs `Ord for Terminal`: EOF greatest, ε second-greatest, ordinary
terminals by length then lexicographically. -/
def cmpTerm (a b : String) : Ordering :=
  if a = eofT ∧ b = eofT then .eq
  else if b = eofT then .lt
  else if a = eofT then .gt
  else if a = epsT ∧ b = epsT then .eq
  else if b = epsT then .lt
  else if a = epsT then .gt
  else
    match compare a.length b.length with
    | .eq => cmpStr a b
    | o => o

/-- token.rs `Ord for Token`: terminals before non-terminals. -/
def cmpTok : Tok → Tok → Ordering
  | .term a, .term b => cmpTerm a b
  | .term _, .nonterm _ => .lt
  | .nonterm _, .term _ => .gt
  | .nonterm a, .nonterm b => cmpStr a b

/-- Insertion into a sorted deduplicated list (`BTreeSet::insert`). -/
def insSorted (f : α → α → Ordering) (x : α) : List α → List α
  | [] => [x]
  | y :: ys =>
    match f x y with
    | .lt => x :: y :: ys
    | .eq => y :: ys
    | .gt => y :: insSorted f x ys

/-- Union of a list of elements into a sorted set (`BTreeSet::extend`). -/
def extSorted (f : α → α → Ordering) (base : List α) (xs : List α) : List α :=
  xs.foldl (fun acc x => insSorted f x acc) base

/-- Sort a list into a sorted deduplicated set. -/
def toSorted (f : α → α → Ordering) (xs : List α) : List α := extSorted f [] xs

/-- grammar.rs `Production`: head non-terminal and tail of tokens. -/
structure Production where
  head : String
  tail : List Tok
deriving DecidableEq, Repr

/-- Lexicographic list comparison (Rust derived `Ord` on `Vec`). -/
def cmpListWith (f : α → α → Ordering) : List α → List α → Ordering
  | [], [] => .eq
  | [], _ :: _ => .lt
  | _ :: _, [] => .gt
  | a :: as, b :: bs =>
    match f a b with
    | .eq => cmpListWith f as bs
    | o => o

/-- Derived `Ord` on `Production`: head, then tail. -/
def cmpProd (a b : Production) : Ordering :=
  match cmpStr a.head b.head with
  | .eq => cmpListWith cmpTok a.tail b.tail
  | o => o

/-- Tail of a production with ε occurrences removed
(grammar.rs `Production::tail_without_eps`). -/
def tailWithoutEps (p : Production) : List Tok :=
  p.tail.filter (fun t => t ≠ .term epsT)

/-- Effective length of a production (grammar.rs `Production::len`). -/
def prodEffLen (p : Production) : Nat := (tailWithoutEps p).length

/-- item.rs `Item`: production, dot position and lookahead set (sorted). -/
structure Item where
  prod : Production
  dot : Nat
  la : List String
deriving DecidableEq, Repr

/-- Derived `Ord` on `Item`: production, dot, then lookahead set
(`BTreeSet` ordering is lexicographic over the sorted elements). -/
def cmpItem (a b : Item) : Ordering :=
  match cmpProd a.prod b.prod with
  | .eq =>
    match compare a.dot b.dot with
    | .eq => cmpListWith cmpTerm a.la b.la
    | o => o
  | o => o

namespace Item

/-- item.rs `Item::expected`: the effective-tail symbol at the dot. -/
def expected (i : Item) : Option Tok := (tailWithoutEps i.prod).get? i.dot

/-- item.rs `Item::future_seq`: effective tail strictly after the dot. -/
def futureSeq (i : Item) : List Tok := (tailWithoutEps i.prod).drop (i.dot + 1)

/-- item.rs `Item::goto`: advance the dot over an expected token. -/
def goto (i : Item) (t : Tok) : Option Item :=
  match i.expected with
  | none => none
  | some e => if e = t then some { i with dot := i.dot + 1 } else none

/-- item.rs `Item::reduces`: the lookahead set when the item is reducible. -/
def reduces (i : Item) : Option (List String) :=
  match i.expected with
  | none => some i.la
  | some _ => none

/-- item.rs `Item::with_dot_inc` (used by panic.rs): dot advanced by one. -/
def withDotInc (i : Item) : Item := { i with dot := i.dot + 1 }

/-- item.rs `Item::initial`: dot at position zero. -/
def initial (p : Production) (la : List String) : Item := ⟨p, 0, la⟩

end Item

/-- Errors of the library (error.rs `Error`, plus the two variants
`StateNotFound` and `AmbiguousGrammar` that panic.rs raises, plus the two
modelling artifacts described in the header). -/
inductive Err where
  | parseNoArrow : Nat → Err
  | parseTokenTypeMisMatch : Nat → String → Err
  | parseStartSymbolNotFound : Err
  | grammarNotAugmented : Err
  | invalidFirstSetState : Err
  | nonTerminalNotFound : String → Err
  | unresolvableFirstSet : Err
  | stateNotFound : Nat → Err
  | ambiguousGrammar : Err
  | fuelOut : Err
  | modelPanic : Err
deriving DecidableEq, Repr

instance [DecidableEq ε] [DecidableEq α] : DecidableEq (Except ε α)
  | .error x, .error y =>
    if h : x = y then isTrue (by rw [h])
    else isFalse (fun hc => h (by cases hc; rfl))
  | .error _, .ok _ => isFalse (fun hc => by cases hc)
  | .ok _, .error _ => isFalse (fun hc => by cases hc)
  | .ok x, .ok y =>
    if h : x = y then isTrue (by rw [h])
    else isFalse (fun hc => h (by cases hc; rfl))

/-- State of one FIRST-set cache slot (grammar.rs `FirstSet`). -/
inductive FirstState where
  | presense : List String → FirstState
  | calculating : FirstState
  | notPresense : FirstState
deriving DecidableEq, Repr

/-- The FIRST-set cache of a grammar: one slot per non-terminal
(grammar.rs `Grammar::first_sets`, threaded explicitly). -/
abbrev FirstCache := List (String × FirstState)

/-- Cache lookup (`first_sets.get`). -/
def cacheGet (st : FirstCache) (nt : String) : Option FirstState :=
  (st.find? (fun p => p.1 = nt)).map (·.2)

/-- Cache write (replace the slot; append when absent). -/
def cacheSet (st : FirstCache) (nt : String) (v : FirstState) : FirstCache :=
  match st with
  | [] => [(nt, v)]
  | (k, w) :: rest =>
    if k = nt then (nt, v) :: rest else (k, w) :: cacheSet rest nt v

/-- grammar.rs `Grammar` (the `RefCell` cache is carried as the initial
`firstSets` value; `bump` has no observable content). -/
structure Grammar where
  prods : List Production
  prodIndexes : List (Production × Nat)
  tokens : List Tok
  start : String
  firstSets : FirstCache
deriving DecidableEq, Repr

/-- grammar.rs `Grammar::index_of_prod` (`HashMap` keyed by structural
production equality). -/
def indexOfProd (g : Grammar) (p : Production) : Option Nat :=
  (g.prodIndexes.find? (fun q => q.1 = p)).map (·.2)

/-- Deduplicate a list keeping first occurrences. -/
def dedupKeepFirst [DecidableEq α] : List α → List α
  | [] => []
  | x :: xs =>
    let rest := dedupKeepFirst xs
    if x ∈ rest then rest else x :: rest

/-- The productions headed by a non-terminal, in insertion order and
deduplicated by structural equality (grammar.rs `Grammar::prods_of`
collects into a `HashSet<&Production>`, which deduplicates). -/
def prodsOfBase (g : Grammar) (nt : String) : List Production :=
  dedupKeepFirst (g.prods.filter (fun p => p.head = nt))

/-- Order oracle for `HashSet<&Production>` iteration: Rust leaves this
order unspecified, so it is an explicit parameter of every operation that
iterates `prods_of`. -/
abbrev ProdOrder := String → List Production → List Production

/-- The oracle that keeps insertion order. -/
def orderInsertion : ProdOrder := fun _ ps => ps

/-- The oracle that reverses insertion order (another legal `HashSet`
iteration order). -/
def orderReversed : ProdOrder := fun _ ps => ps.reverse

/-- `prods_of` as iterated, under an order oracle. -/
def prodsOf (po : ProdOrder) (g : Grammar) (nt : String) : List Production :=
  po nt (prodsOfBase g nt)

/-- Extend a first set with all non-ε elements of `s`
(`first_set.extend(s.iter().filter(|t| **t != EPSILON))`). -/
def extendNonEps (fs : List String) (s : List String) : List String :=
  extSorted cmpTerm fs (s.filter (fun t => t ≠ epsT))

/-- One pass of the `while !should_break` scan over a production tail inside
grammar.rs `Grammar::calc_first`.  `cf` is the nested FIRST computation
(`calc_first` one recursion level down), `childFlag` the `recalc` value it
is passed (`false` in the first phase, `true` in the recompute phase).
Returns the extended first set, whether the scan hit `InvalidFirstSetState`
(left recursion), whether any nested call reported a recompute need, and
the threaded cache. -/
def walkTail (cf : FirstCache → String → Bool → Except Err (Bool × List String × FirstCache))
    (childFlag : Bool) :
    List Tok → List String → FirstCache →
      Except Err (List String × Bool × Bool × FirstCache)
  | [], fs, st => .ok (insSorted cmpTerm epsT fs, false, false, st)
  | .term t :: rest, fs, st =>
    if t = epsT then walkTail cf childFlag rest fs st
    else .ok (insSorted cmpTerm t fs, false, false, st)
  | .nonterm b :: rest, fs, st =>
    match cf st b childFlag with
    | .error .invalidFirstSetState => .ok (fs, true, false, st)
    | .error e => .error e
    | .ok (rc, s, st1) =>
      let fs1 := extendNonEps fs s
      if epsT ∈ s then
        match walkTail cf childFlag rest fs1 st1 with
        | .error e => .error e
        | .ok (fs2, iv, rc2, st2) => .ok (fs2, iv, rc || rc2, st2)
      else .ok (fs1, false, rc, st1)

/-- One phase of `calc_first` over a list of productions.  In the first
phase (`promoteRc = false`) a nested recompute report adds the production
to the `need_recalc` accumulator `nr`; in the recompute phase
(`promoteRc = true`) it sets `should_recalc` instead.  Hitting left
recursion sets `should_recalc` in both phases. -/
def phaseScan (cf : FirstCache → String → Bool → Except Err (Bool × List String × FirstCache))
    (childFlag promoteRc : Bool) :
    List Production → List String → Bool → List Production → FirstCache →
      Except Err (List String × Bool × List Production × FirstCache)
  | [], fs, sr, nr, st => .ok (fs, sr, nr, st)
  | p :: ps, fs, sr, nr, st =>
    match walkTail cf childFlag p.tail fs st with
    | .error e => .error e
    | .ok (fs1, iv, rc, st1) =>
      phaseScan cf childFlag promoteRc ps fs1
        (sr || iv || (promoteRc && rc))
        (if promoteRc then nr else if rc then nr ++ [p] else nr) st1

/-- grammar.rs `Grammar::calc_first`.  Returns
(needs-recompute flag, first set, threaded cache).  The `need_recalc`
`HashSet` is modelled in insertion order. -/
def calcFirst (po : ProdOrder) (g : Grammar) :
    Nat → FirstCache → String → Bool →
      Except Err (Bool × List String × FirstCache)
  | 0, _, _, _ => .error .fuelOut
  | fuel + 1, st, nt, recalc =>
    match cacheGet st nt with
    | none => .error (.nonTerminalNotFound nt)
    | some .calculating => .error .invalidFirstSetState
    | some slot =>
      match slot, recalc with
      | .presense fs, false => .ok (false, fs, st)
      | _, _ =>
        let cf := fun st2 b fl => calcFirst po g fuel st2 b fl
        let st1 := cacheSet st nt .calculating
        match phaseScan cf false false (prodsOf po g nt) [] false [] st1 with
        | .error e => .error e
        | .ok (fs1, sr1, nr, st2) =>
          let st3 := cacheSet st2 nt (.presense fs1)
          match phaseScan cf true true nr fs1 sr1 [] st3 with
          | .error e => .error e
          | .ok (fs2, sr2, _, st4) =>
            let st5 := cacheSet st4 nt (.presense fs2)
            .ok (sr2, fs2, st5)

/-- The loop body of grammar.rs `Grammar::first_set` over a token
sequence, accumulating into `fs`: on a non-terminal whose computation
reports a recompute need, retry once with `recalc = true` and fail with
`UnresolvableFirstSet` if the flag is still set. -/
def firstSetGo (po : ProdOrder) (g : Grammar) (fuel : Nat) :
    List Tok → List String → FirstCache →
      Except Err (List String × FirstCache)
  | [], fs, st => .ok (insSorted cmpTerm epsT fs, st)
  | .term t :: rest, fs, st =>
    if t = epsT then firstSetGo po g fuel rest fs st
    else .ok (insSorted cmpTerm t fs, st)
  | .nonterm nt :: rest, fs, st =>
    match calcFirst po g fuel st nt false with
    | .error e => .error e
    | .ok (rc, s, st1) =>
      let retried : Except Err (List String × FirstCache) :=
        if rc then
          match calcFirst po g fuel st1 nt true with
          | .error e => .error e
          | .ok (true, _, _) => .error .unresolvableFirstSet
          | .ok (false, s2, st2) => .ok (s2, st2)
        else .ok (s, st1)
      match retried with
      | .error e => .error e
      | .ok (s3, st3) =>
        let fs1 := extendNonEps fs s3
        if epsT ∈ s3 then firstSetGo po g fuel rest fs1 st3
        else .ok (fs1, st3)

/-- grammar.rs `Grammar::first_set` of a token sequence. -/
def firstSeq (po : ProdOrder) (g : Grammar) (fuel : Nat)
    (st : FirstCache) (seq : List Tok) :
    Except Err (List String × FirstCache) :=
  firstSetGo po g fuel seq [] st

/-- Insert-or-replace into an association list (`HashMap::insert`). -/
def assocSet [DecidableEq κ] (m : List (κ × ν)) (k : κ) (v : ν) : List (κ × ν) :=
  match m with
  | [] => [(k, v)]
  | (k0, v0) :: rest =>
    if k0 = k then (k, v) :: rest else (k0, v0) :: assocSet rest k v

/-- Split a char list at every occurrence of a separator char (kernel-
reducible replacement for `String.splitOn` on one-char separators). -/
def chSplit (sep : Char) : List Char → List (List Char)
  | [] => [[]]
  | c :: rest =>
    let r := chSplit sep rest
    if c = sep then [] :: r
    else
      match r with
      | [] => [[c]]
      | w :: ws => (c :: w) :: ws

/-- Rust `str::split_once("->")` on the char level: split at the first
occurrence of the arrow. -/
def chSplitArrow : List Char → List Char → Option (List Char × List Char)
  | acc, '-' :: '>' :: rest => some (acc.reverse, rest)
  | acc, c :: rest => chSplitArrow (c :: acc) rest
  | _, [] => none

/-- Rust `str::trim` (the CFG inputs are ASCII). -/
def chTrim (l : List Char) : List Char :=
  ((l.dropWhile Char.isWhitespace).reverse.dropWhile Char.isWhitespace).reverse

/-- Rust `str::split_once("->")`. -/
def splitArrow (s : String) : Option (String × String) :=
  match chSplitArrow [] s.data with
  | none => none
  | some (a, b) => some (⟨a⟩, ⟨b⟩)

/-- Rust `str::split_ascii_whitespace` (the CFG inputs are ASCII). -/
def splitWs (s : String) : List String :=
  (((s.data.splitOnP Char.isWhitespace)).map (fun w => (⟨w⟩ : String))).filter
    (fun w => w ≠ "")

/-- First pass of grammar.rs `Grammar::from_cfg` over the numbered
non-blank lines: split at the arrow, collect head idents (the
non-terminal set) and record the raw sides. -/
def cfgPassOne :
    List (Nat × String) → List Tok → List String → List (String × String) →
      Except Err (List Tok × List String × List (String × String))
  | [], toks, nts, sp => .ok (toks, nts, sp)
  | (n, line) :: rest, toks, nts, sp =>
    match splitArrow line with
    | none => .error (.parseNoArrow n)
    | some (lhs, rhs) =>
      let h : String := ⟨chTrim lhs.data⟩
      cfgPassOne rest (insSorted cmpTok (.nonterm h) toks) (nts ++ [h])
        (sp ++ [(h, rhs)])

/-- Classification of a tail symbol in `from_cfg`: a non-terminal exactly
when it occurred as some head. -/
def classify (nts : List String) (s : String) : Tok :=
  if s ∈ nts then .nonterm s else .term s

/-- Second pass of `from_cfg`: expand the alternatives of each recorded
line into productions, assigning ids in insertion order and collecting
every tail token into the token set. -/
def cfgPassTwo (nts : List String) :
    List (String × String) → List Production → List (Production × Nat) →
      List Tok → (List Production × List (Production × Nat) × List Tok)
  | [], prods, idxs, toks => (prods, idxs, toks)
  | (h, rhs) :: rest, prods, idxs, toks =>
    let step := ((chSplit '|' rhs.data).map (fun w => (⟨w⟩ : String))).foldl
      (fun acc tailS =>
        let tl := (splitWs tailS).map (fun w => classify nts (⟨chTrim w.data⟩ : String))
        let toks1 := tl.foldl (fun a t => insSorted cmpTok t a) acc.2.2
        let p : Production := ⟨h, tl⟩
        (acc.1 ++ [p], assocSet acc.2.1 p acc.1.length, toks1))
      (prods, idxs, toks)
    cfgPassTwo nts rest step.1 step.2.1 step.2.2

/-- grammar.rs `Grammar::from_cfg`. -/
def fromCfg (s : String) (start : String) : Except Err Grammar :=
  let numbered := (((chSplit '\n' s.data).map (fun w => (⟨w⟩ : String))).enum).filter
    (fun p => p.2.data.any (fun c => ¬ c.isWhitespace))
  match cfgPassOne numbered [.term epsT, .term eofT] [] [] with
  | .error e => .error e
  | .ok (toks, nts, sp) =>
    if start ∈ nts then
      let r := cfgPassTwo nts sp [] [] toks
      .ok { prods := r.1
            prodIndexes := r.2.1
            tokens := r.2.2
            start := start
            firstSets := r.2.2.filterMap (fun t =>
              match t with
              | .nonterm nt => some (nt, FirstState.notPresense)
              | .term _ => none) }
    else .error .parseStartSymbolNotFound

/-- grammar.rs `Grammar::augmented`: shift every production id by one and
insert the fresh start production at id 0. -/
def augmented (g : Grammar) : Grammar :=
  let newStart := g.start ++ "prime"
  let augProd : Production := ⟨newStart, [.nonterm g.start]⟩
  { prods := augProd :: g.prods
    prodIndexes := assocSet (g.prodIndexes.map (fun q => (q.1, q.2 + 1))) augProd 0
    tokens := insSorted cmpTok (.nonterm newStart) g.tokens
    start := newStart
    firstSets := cacheSet g.firstSets newStart .notPresense }

namespace ItemSet

/-- The lookahead set for the closure items generated by one item
(item.rs `ItemSet::closure`): FIRST of the future sequence, with ε
replaced by the generating item's lookaheads. -/
def closureLa (po : ProdOrder) (g : Grammar) (fuel : Nat)
    (st : FirstCache) (i : Item) : Except Err (List String × FirstCache) :=
  match firstSeq po g fuel st i.futureSeq with
  | .error e => .error e
  | .ok (fs, st1) =>
    if epsT ∈ fs then
      .ok (extSorted cmpTerm (fs.filter (fun t => t ≠ epsT)) i.la, st1)
    else .ok (fs, st1)

/-- One round of the closure loop: collect `new_items` for every item
whose expected symbol is a non-terminal (the item itself together with the
initial items of that non-terminal's productions). -/
def closureStep (po : ProdOrder) (g : Grammar) (fuel : Nat) :
    List Item → List Item → FirstCache →
      Except Err (List Item × FirstCache)
  | [], acc, st => .ok (acc, st)
  | i :: rest, acc, st =>
    match i.expected with
    | some (.nonterm nt) =>
      match closureLa po g fuel st i with
      | .error e => .error e
      | .ok (la, st1) =>
        let acc1 := insSorted cmpItem i acc
        let acc2 := (prodsOf po g nt).foldl
          (fun a p => insSorted cmpItem (Item.initial p la) a) acc1
        closureStep po g fuel rest acc2 st1
    | _ => closureStep po g fuel rest acc st

/-- item.rs `ItemSet::merge`: union the lookaheads of items sharing a
(production, dot) core. -/
def merge (items : List Item) : List Item :=
  toSorted cmpItem
    ((dedupKeepFirst (items.map (fun i => (i.prod, i.dot)))).map (fun c =>
      ⟨c.1, c.2,
        (items.filter (fun i => i.prod = c.1 ∧ i.dot = c.2)).foldl
          (fun a i => extSorted cmpTerm a i.la) []⟩))

/-- The fixpoint loop of item.rs `ItemSet::closure`; `lf` bounds the
number of rounds (the Rust loop always converges). -/
def closureLoop (po : ProdOrder) (g : Grammar) (fuel : Nat) :
    Nat → List Item → FirstCache → Except Err (List Item × FirstCache)
  | 0, _, _ => .error .fuelOut
  | n + 1, items, st =>
    match closureStep po g fuel items [] st with
    | .error e => .error e
    | .ok (new, st1) =>
      if new.all (fun x => x ∈ items) then .ok (items, st1)
      else closureLoop po g fuel n (extSorted cmpItem items new) st1

/-- item.rs `ItemSet::closure` followed by the trailing `merge`. -/
def closure (po : ProdOrder) (g : Grammar) (fuel lf : Nat)
    (items : List Item) (st : FirstCache) :
    Except Err (List Item × FirstCache) :=
  match closureLoop po g fuel lf items st with
  | .error e => .error e
  | .ok (r, st1) => .ok (merge r, st1)

/-- item.rs `ItemSet::goto`: move every item over `tok`; `none` when no
item moves, otherwise the closure of the moved set. -/
def goto (po : ProdOrder) (g : Grammar) (fuel lf : Nat)
    (items : List Item) (tok : Tok) (st : FirstCache) :
    Except Err (Option (List Item) × FirstCache) :=
  let moved := items.filterMap (fun i => i.goto tok)
  if moved.isEmpty then .ok (none, st)
  else
    match closure po g fuel lf (toSorted cmpItem moved) st with
    | .error e => .error e
    | .ok (c, st1) => .ok (some c, st1)

/-- item.rs `ItemSet::initial`: the closure of the start item, requiring
the (augmented) start symbol to have exactly one production. -/
def initial (po : ProdOrder) (g : Grammar) (fuel lf : Nat)
    (st : FirstCache) : Except Err (List Item × FirstCache) :=
  match prodsOfBase g g.start with
  | [p] => closure po g fuel lf [Item.initial p [eofT]] st
  | _ => .error .grammarNotAugmented

/-- item.rs `ItemSet::reduces`: every (reducible item, lookahead terminal)
pair, in item order then lookahead order. -/
def reduces (items : List Item) : List (Item × String) :=
  items.foldl (fun acc i =>
    match i.reduces with
    | none => acc
    | some la => acc ++ la.map (fun t => (i, t))) []

end ItemSet

/-- item.rs `Family`: the item sets in state order plus the GOTO edges,
keyed by source state with edges sorted as `BTreeSet<(Token, usize)>`. -/
structure Family where
  itemSets : List (List Item)
  gotos : List (Nat × List (Tok × Nat))
deriving DecidableEq, Repr

/-- Ordering of GOTO edges (derived `Ord` on `(Token, usize)`). -/
def cmpEdge (a b : Tok × Nat) : Ordering :=
  match cmpTok a.1 b.1 with
  | .eq => compare a.2 b.2
  | o => o

/-- Record one GOTO edge (`gotos.entry(from).or_default().insert(..)`). -/
def gotosAdd (gs : List (Nat × List (Tok × Nat))) (frm : Nat) (e : Tok × Nat) :
    List (Nat × List (Tok × Nat)) :=
  match gs with
  | [] => [(frm, [e])]
  | (k, v) :: rest =>
    if k = frm then (k, insSorted cmpEdge e v) :: rest
    else (k, v) :: gotosAdd rest frm e

/-- item.rs `Family::gotos_of`. -/
def gotosOf (fam : Family) (s : Nat) : Option (List (Tok × Nat)) :=
  (fam.gotos.find? (fun p => p.1 = s)).map (·.2)

/-- The scan of one source state over every grammar token inside
`Family::from_grammar`, threading the new-state list, the edges and the
cache.  The index lookup searches the states known so far (old states
followed by the states discovered in this pass, as in `item_sets_idx`). -/
def passTokens (po : ProdOrder) (g : Grammar) (fuel lf : Nat)
    (oldSets : List (List Item)) (frm : Nat) (is : List Item) :
    List Tok → List (List Item) → List (Nat × List (Tok × Nat)) → FirstCache →
      Except Err (List (List Item) × List (Nat × List (Tok × Nat)) × FirstCache)
  | [], newSets, gs, st => .ok (newSets, gs, st)
  | tok :: rest, newSets, gs, st =>
    match ItemSet.goto po g fuel lf is tok st with
    | .error e => .error e
    | .ok (none, st1) => passTokens po g fuel lf oldSets frm is rest newSets gs st1
    | .ok (some nis, st1) =>
      match (oldSets ++ newSets).findIdx? (fun x => x = nis) with
      | some dst =>
        passTokens po g fuel lf oldSets frm is rest newSets
          (gotosAdd gs frm (tok, dst)) st1
      | none =>
        let dst := oldSets.length + newSets.length
        passTokens po g fuel lf oldSets frm is rest (newSets ++ [nis])
          (gotosAdd gs frm (tok, dst)) st1

/-- One pass of `Family::from_grammar` over the states known at the start
of the pass. -/
def passStates (po : ProdOrder) (g : Grammar) (fuel lf : Nat)
    (oldSets : List (List Item)) :
    List (Nat × List Item) → List (List Item) →
      List (Nat × List (Tok × Nat)) → FirstCache →
      Except Err (List (List Item) × List (Nat × List (Tok × Nat)) × FirstCache)
  | [], newSets, gs, st => .ok (newSets, gs, st)
  | (frm, is) :: rest, newSets, gs, st =>
    match passTokens po g fuel lf oldSets frm is g.tokens newSets gs st with
    | .error e => .error e
    | .ok (newSets1, gs1, st1) =>
      passStates po g fuel lf oldSets rest newSets1 gs1 st1

/-- The outer loop of `Family::from_grammar`: iterate passes until no new
item set appears; `pf` bounds the number of passes. -/
def famLoop (po : ProdOrder) (g : Grammar) (fuel lf : Nat) :
    Nat → List (List Item) → List (Nat × List (Tok × Nat)) → FirstCache →
      Except Err (Family × FirstCache)
  | 0, _, _, _ => .error .fuelOut
  | n + 1, sets, gs, st =>
    match passStates po g fuel lf sets sets.enum [] gs st with
    | .error e => .error e
    | .ok (newSets, gs1, st1) =>
      if newSets.isEmpty then .ok (⟨sets, gs1⟩, st1)
      else famLoop po g fuel lf n (sets ++ newSets) gs1 st1

/-- item.rs `Family::from_grammar`. -/
def fromGrammar (po : ProdOrder) (g : Grammar) (fuel lf pf : Nat)
    (st : FirstCache) : Except Err (Family × FirstCache) :=
  match ItemSet.initial po g fuel lf st with
  | .error e => .error e
  | .ok (i0, st1) => famLoop po g fuel lf pf [i0] [] st1

/-- table.rs `ActionCell`. -/
inductive ActionCell where
  | shift : Nat → ActionCell
  | reduce : Nat → ActionCell
  | conflict : ActionCell → ActionCell → ActionCell
  | accept : ActionCell
  | empty : ActionCell
deriving DecidableEq, Repr

namespace ActionCell

/-- table.rs `ActionCell::update`: combine the present cell content with a
newly written cell, returning the combined cell and the conflict report
(the match arms mirror the Rust `match (this, cell)` in order). -/
def update : ActionCell → ActionCell → ActionCell × Bool
  | .empty, other => (other, false)
  | this, .empty => (this, false)
  | .conflict ca cb, other => (.conflict (.conflict ca cb) other, true)
  | this, .conflict ca cb => (.conflict this (.conflict ca cb), true)
  | a, b => (.conflict a b, false)

/-- Whether a cell is a `Conflict` node. -/
def isConflict : ActionCell → Bool
  | .conflict _ _ => true
  | _ => false

end ActionCell

/-- token.rs `Token::is_term`. -/
def tokIsTerm : Tok → Bool
  | .term _ => true
  | .nonterm _ => false

/-- token.rs `Token::as_str`. -/
def tokStr : Tok → String
  | .term s => s
  | .nonterm s => s

/-- The ACTION-table terminal columns: the longest terminal prefix of the
grammar's token set (table.rs `build_from` uses `map_while(as_term)`). -/
def termsOf (g : Grammar) : List String :=
  (g.tokens.takeWhile tokIsTerm).map tokStr

/-- The GOTO-table non-terminal columns (`skip_while(is_term)` followed by
`as_non_term().unwrap()`; `none` models the panic when a terminal remains). -/
def nonTermsOf (g : Grammar) : Option (List String) :=
  let rest := g.tokens.dropWhile tokIsTerm
  if rest.all (fun t => ¬ tokIsTerm t) then some (rest.map tokStr) else none

/-- Replace the element at an index of a list (in-place array write). -/
def updAt (n : Nat) (f : α → α) : List α → List α
  | [] => []
  | x :: xs =>
    match n with
    | 0 => f x :: xs
    | m + 1 => x :: updAt m f xs

/-- table.rs `Table`. -/
structure Table where
  action : List (List ActionCell)
  gotoTbl : List (List (Option Nat))
  terms : List String
  nonTerms : List String
  conflict : Bool
deriving DecidableEq, Repr

/-- The cell written for a reducible item with production id `pIdx` at
terminal column `tIdx` (the `if prod_idx == 0 && term_idx == terms.len()-1`
branch of table.rs `build_from`). -/
def reduceActionCell (terms : List String) (pIdx tIdx : Nat) : ActionCell :=
  if pIdx = 0 ∧ tIdx = terms.length - 1 then .accept else .reduce pIdx

/-- One ACTION-cell write of `build_from`, accumulating the conflict flag. -/
def writeAction (acc : List (List ActionCell) × Bool) (row col : Nat)
    (c : ActionCell) : List (List ActionCell) × Bool :=
  let cell := (acc.1.getD row []).getD col .empty
  let r := cell.update c
  (updAt row (updAt col (fun _ => r.1)) acc.1, acc.2 || r.2)

/-- The GOTO-edge writes of one row of `build_from`. -/
def rowEdgeWrites (terms nonTerms : List String) (row : Nat)
    (edges : List (Tok × Nat)) :
    List (List ActionCell) × Bool → List (List (Option Nat)) →
      Option ((List (List ActionCell) × Bool) × List (List (Option Nat)))
  | ab, gt =>
    match edges with
    | [] => some (ab, gt)
    | (tok, dst) :: rest =>
      match tok with
      | .term t =>
        match terms.findIdx? (fun x => x = t) with
        | none => none
        | some col =>
          rowEdgeWrites terms nonTerms row rest
            (writeAction ab row col (.shift dst)) gt
      | .nonterm nt =>
        match nonTerms.findIdx? (fun x => x = nt) with
        | none => none
        | some col =>
          rowEdgeWrites terms nonTerms row rest ab
            (updAt row (updAt col (fun _ => some dst)) gt)

/-- The reduce/accept writes of one row of `build_from`. -/
def rowReduceWrites (g : Grammar) (terms : List String) (row : Nat) :
    List (Item × String) → List (List ActionCell) × Bool →
      Option (List (List ActionCell) × Bool)
  | [], ab => some ab
  | (i, t) :: rest, ab =>
    match indexOfProd g i.prod with
    | none => none
    | some pIdx =>
      match terms.findIdx? (fun x => x = t) with
      | none => none
      | some tIdx =>
        rowReduceWrites g terms row rest
          (writeAction ab row tIdx (reduceActionCell terms pIdx tIdx))

/-- All writes of `build_from`, row by row. -/
def buildRows (g : Grammar) (fam : Family) (terms nonTerms : List String) :
    List (Nat × List Item) → List (List ActionCell) × Bool →
      List (List (Option Nat)) →
      Option ((List (List ActionCell) × Bool) × List (List (Option Nat)))
  | [], ab, gt => some (ab, gt)
  | (row, is) :: rest, ab, gt =>
    let edges := (gotosOf fam row).getD []
    match rowEdgeWrites terms nonTerms row edges ab gt with
    | none => none
    | some (ab1, gt1) =>
      match rowReduceWrites g terms row (ItemSet.reduces is) ab1 with
      | none => none
      | some ab2 => buildRows g fam terms nonTerms rest ab2 gt1

/-- table.rs `Table::build_from` (`none` models the `unwrap` panics). -/
def buildFrom (fam : Family) (g : Grammar) : Option Table :=
  let terms := termsOf g
  match nonTermsOf g with
  | none => none
  | some nonTerms =>
    let rows := fam.itemSets.length
    let action0 := List.replicate rows (List.replicate terms.length ActionCell.empty)
    let goto0 := List.replicate rows (List.replicate nonTerms.length (none : Option Nat))
    match buildRows g fam terms nonTerms fam.itemSets.enum (action0, false) goto0 with
    | none => none
    | some ((action, conflict), gt) =>
      some ⟨action, gt, terms, nonTerms, conflict⟩

/-- table.rs `Table::conflict`. -/
def Table.conflictFlag (t : Table) : Bool := t.conflict

/-- Whether some ACTION cell of the table is a `Conflict` node. -/
def Table.hasConflictCell (t : Table) : Bool :=
  t.action.any (fun row => row.any ActionCell.isConflict)

/-- table.rs `Table::action`: the ACTION cell of a state and terminal,
`none` when the terminal is not a column or the state is not a row. -/
def Table.actionAt (t : Table) (state : Nat) (term : String) : Option ActionCell :=
  match t.terms.findIdx? (fun x => x = term) with
  | none => none
  | some col =>
    match t.action.get? state with
    | none => none
    | some row => some (row.getD col .empty)

/-- Modelled from the spec: `Grammar::first_set_with_fallthrough` is
called by panic.rs but absent from grammar.rs in this snapshot; spec §4.1
defines it as FIRST(α) when ε ∉ FIRST(α), and (FIRST(α) − ε) ∪ ℓ
otherwise. -/
def firstSeqFallthrough (po : ProdOrder) (g : Grammar) (fuel : Nat)
    (st : FirstCache) (seq : List Tok) (la : List String) :
    Except Err (List String × FirstCache) :=
  match firstSeq po g fuel st seq with
  | .error e => .error e
  | .ok (fs, st1) =>
    if epsT ∈ fs then
      .ok (extSorted cmpTerm (fs.filter (fun t => t ≠ epsT)) la, st1)
    else .ok (fs, st1)

/-- panic.rs `PanicAction`. -/
inductive PanicAction where
  | shift : String → Nat → PanicAction
  | reduce : Nat → PanicAction
  | accept : PanicAction
  | empty : PanicAction
deriving DecidableEq, Repr

/-- The item scan of panic.rs `Table::panic_action`: items in item-set
order; an expected-terminal item returns a shift when the offending
terminal is in the advanced item's reduce set or in the FIRST-with-
fallthrough of its remaining tail; a reducible item returns Accept for
production id 0 and Reduce otherwise; expected-non-terminal items are
skipped. -/
def panicScan (po : ProdOrder) (g : Grammar) (fuel : Nat) (fam : Family)
    (state : Nat) (term : String) :
    List Item → FirstCache → Except Err (PanicAction × FirstCache)
  | [], st => .ok (.empty, st)
  | i :: rest, st =>
    match i.expected with
    | some (.term x) =>
      let panicI := i.withDotInc
      match gotosOf fam state with
      | none => .error .modelPanic
      | some edges =>
        match edges.filterMap
            (fun e => if e.1 = Tok.term x then some e.2 else none) with
        | [] => .error .modelPanic
        | [dst] =>
          if (panicI.reduces.getD []).contains term then
            .ok (.shift x dst, st)
          else
            match firstSeqFallthrough po g fuel st panicI.futureSeq panicI.la with
            | .error e => .error e
            | .ok (fs, st1) =>
              if term ∈ fs then .ok (.shift x dst, st1)
              else panicScan po g fuel fam state term rest st1
        | _ :: _ :: _ => .error .ambiguousGrammar
    | some (.nonterm _) => panicScan po g fuel fam state term rest st
    | none =>
      match indexOfProd g i.prod with
      | none => .error .modelPanic
      | some p =>
        if p = 0 then .ok (.accept, st) else .ok (.reduce p, st)

/-- panic.rs `Table::panic_action`. -/
def panicAction (po : ProdOrder) (g : Grammar) (fuel : Nat) (fam : Family)
    (state : Nat) (term : String) (st : FirstCache) :
    Except Err (PanicAction × FirstCache) :=
  match fam.itemSets.get? state with
  | none => .error (.stateNotFound state)
  | some is => panicScan po g fuel fam state term is st

end LR

namespace LR

/-! ## Derivation semantics

Used to state what FIRST sets are supposed to contain.  A sentential form
is a list of tokens; one step replaces a non-terminal occurrence by the
effective tail (ε tokens carry no content) of one of its productions. -/

/-- One derivation step of a grammar. -/
inductive DStep (g : Grammar) : List Tok → List Tok → Prop
  | replace (pre post : List Tok) (p : Production) (hp : p ∈ g.prods) :
      DStep g (pre ++ Tok.nonterm p.head :: post) (pre ++ tailWithoutEps p ++ post)

/-- Zero or more derivation steps. -/
def Derives (g : Grammar) : List Tok → List Tok → Prop :=
  Relation.ReflTransGen (DStep g)

/-! ## Concrete pipelines used by the counterexamples -/

/-- Parse a CFG text and augment the resulting grammar. -/
def grammarOfCfg (cfg start : String) : Option Grammar :=
  match fromCfg cfg start with
  | .ok g => some (augmented g)
  | .error _ => none

/-- Parse, augment and build the canonical collection under a production
order oracle, with ample fuel for the small grammars of this file. -/
def familyOfCfg (po : ProdOrder) (cfg start : String) : Option Family :=
  match grammarOfCfg cfg start with
  | none => none
  | some g =>
    match fromGrammar po g 30 30 30 g.firstSets with
    | .ok (fam, _) => some fam
    | .error _ => none

/-- Parse, augment, build the canonical collection and assemble the
ACTION/GOTO table (insertion-order oracle). -/
def tableOfCfg (cfg start : String) : Option Table :=
  match grammarOfCfg cfg start with
  | none => none
  | some g =>
    match fromGrammar orderInsertion g 30 30 30 g.firstSets with
    | .ok (fam, _) => buildFrom fam g
    | .error _ => none

/-! ## C1 -/

/-- C1: on the grammar `S -> A a | a a; A -> a` (augmented), `build_from`
returns a table whose conflict boolean is `false` although an ACTION cell
holds a `Conflict` node: `ActionCell::update` fails to report the first
conflict of a cell (the final match arm builds a `Conflict` without
setting the flag), so `conflict()` is not equivalent to the existence of
Conflict leaves, refuting the claimed equivalence. -/
theorem c1_conflict_flag_misses_first_conflict :
    (tableOfCfg "S -> A a | a a\nA -> a" "S").map
      (fun t => (t.conflictFlag, t.hasConflictCell)) = some (false, true) := by
  decide

end LR
namespace LR

/-! ## C4 -/

set_option maxHeartbeats 4000000 in
/-- C4: `Family::from_grammar` iterates `Grammar::prods_of`, which returns
a `HashSet` whose iteration order Rust does not specify.  On the grammar
`C -> y; D -> A D; D -> C A; C -> A; A -> D` (start `A`, augmented), two
runs that iterate the production sets in different orders both succeed
but produce different families (the lookaheads of the C-items of state 0
differ), refuting the claim that two runs on the same grammar produce
identical item sets; the spec even demands production iteration in
insertion order, which the `HashSet`-based code cannot guarantee. -/
theorem c4_family_depends_on_hash_iteration_order :
    (familyOfCfg orderInsertion "C -> y\nD -> A D\nD -> C A\nC -> A\nA -> D" "A").isSome
      = true
    ∧ (familyOfCfg orderReversed "C -> y\nD -> A D\nD -> C A\nC -> A\nA -> D" "A").isSome
      = true
    ∧ familyOfCfg orderInsertion "C -> y\nD -> A D\nD -> C A\nC -> A\nA -> D" "A"
      ≠ familyOfCfg orderReversed "C -> y\nD -> A D\nD -> C A\nC -> A\nA -> D" "A" := by
  refine ⟨by decide, by decide, by decide⟩

end LR
namespace LR

/-! ## C7 -/

/-- Lookup after `assocSet`: the inserted key maps to the new value, other
keys are unchanged. -/
theorem assocFind_assocSet [DecidableEq κ] (m : List (κ × ν)) (k p : κ) (v : ν) :
    ((assocSet m k v).find? (fun q => q.1 = p)).map (·.2) =
      if p = k then some v else (m.find? (fun q => q.1 = p)).map (·.2) := by
  induction m with
  | nil =>
    by_cases h : p = k
    · subst h; simp [assocSet, List.find?]
    · have hk : (decide (k = p)) = false := by
        simp only [decide_eq_false_iff_not]
        exact fun hkp => h hkp.symm
      simp [assocSet, List.find?, hk, h]
  | cons hd tl ih =>
    obtain ⟨k0, v0⟩ := hd
    by_cases hk : k0 = k
    · subst hk
      by_cases hp : p = k0
      · subst hp; simp [assocSet, List.find?]
      · have h1 : (decide (k0 = p)) = false := by
          simp only [decide_eq_false_iff_not]
          exact fun hkp => hp hkp.symm
        simp [assocSet, List.find?, h1, hp]
    · by_cases hp : p = k0
      · subst hp
        simp [assocSet, hk, List.find?]
      · have h1 : (decide (k0 = p)) = false := by
          simp only [decide_eq_false_iff_not]
          exact fun hkp => hp hkp.symm
        simp [assocSet, hk, List.find?, h1, ih]

/-- Lookup after mapping all values: the found value is mapped. -/
theorem assocFind_mapVal (m : List (κ × ν)) (p : κ) (f : ν → ν) [DecidableEq κ] :
    (((m.map (fun q => (q.1, f q.2))).find? (fun q => q.1 = p)).map (·.2)) =
      ((m.find? (fun q => q.1 = p)).map (·.2)).map f := by
  induction m with
  | nil => simp
  | cons hd tl ih =>
    obtain ⟨k0, v0⟩ := hd
    by_cases h : k0 = p
    · simp [List.find?, h]
    · have hd : (decide (k0 = p)) = false := by
        simp only [decide_eq_false_iff_not]; exact h
      simp only [List.map_cons, List.find?, hd]
      simpa using ih

/-- C7 counterexample: on the grammar text `Sprime -> S; S -> a` with
start `S`, the production `Sprime -> S` exists before augmentation with id
0, and after `Grammar::augmented` its `index_of_prod` id is 0 rather than
the claimed 0 + 1: the fresh start production collides with it in the
`HashMap` keyed by structural production equality, so ids do not shift by
+1 consistently in `index_of_prod`. -/
theorem c7_counterexample :
    (fromCfg "Sprime -> S\nS -> a" "S").toOption.map
        (fun g => (indexOfProd g ⟨"Sprime", [Tok.nonterm "S"]⟩,
                   indexOfProd (augmented g) ⟨"Sprime", [Tok.nonterm "S"]⟩,
                   (augmented g).prods.get? 0,
                   (augmented g).start))
      = some (some 0, some 0, some ⟨"Sprime", [Tok.nonterm "S"]⟩, "Sprime") := by
  decide

/-- C7 as amended: `augmented` puts the fresh production `Sprime -> S` at
the head of the production list (so id 0 in list order, every other
production's list position shifting by one), and `index_of_prod` maps the
fresh production to 0 and every production *not structurally equal to it*
to its pre-augmentation id plus one; a pre-existing production equal to
`Sprime -> S` is instead remapped to 0. -/
theorem c7_amended (g : Grammar) :
    (augmented g).prods = ⟨g.start ++ "prime", [Tok.nonterm g.start]⟩ :: g.prods
    ∧ ∀ p : Production,
        indexOfProd (augmented g) p =
          if p = ⟨g.start ++ "prime", [Tok.nonterm g.start]⟩ then some 0
          else (indexOfProd g p).map (· + 1) := by
  constructor
  · rfl
  · intro p
    show ((assocSet (g.prodIndexes.map (fun q => (q.1, q.2 + 1)))
        ⟨g.start ++ "prime", [Tok.nonterm g.start]⟩ 0).find?
          (fun q => q.1 = p)).map (·.2) = _
    rw [assocFind_assocSet]
    by_cases h : p = (⟨g.start ++ "prime", [Tok.nonterm g.start]⟩ : Production)
    · simp [h]
    · simp only [h, if_false]
      have := assocFind_mapVal (f := fun n => n + 1) g.prodIndexes p
      simpa [indexOfProd] using this

end LR
namespace LR

/-! ## C3 -/

/-- The grammar parsed from the CFG text `A -> A z | E; B -> A A` with
start `A` (the C3 failing input). -/
def c3g : Grammar :=
  { prods := [⟨"A", [Tok.nonterm "A", Tok.term "z"]⟩,
              ⟨"A", [Tok.term "E"]⟩,
              ⟨"B", [Tok.nonterm "A", Tok.nonterm "A"]⟩]
    prodIndexes := [(⟨"A", [Tok.nonterm "A", Tok.term "z"]⟩, 0),
                    (⟨"A", [Tok.term "E"]⟩, 1),
                    (⟨"B", [Tok.nonterm "A", Tok.nonterm "A"]⟩, 2)]
    tokens := [Tok.term "z", Tok.term "E", Tok.term "eof",
               Tok.nonterm "A", Tok.nonterm "B"]
    start := "A"
    firstSets := [("A", FirstState.notPresense), ("B", FirstState.notPresense)] }

/-- C3: on the grammar built from the CFG text `A -> A z | E; B -> A A`,
the FIRST computation of `B` succeeds and returns `{ε}`, yet
`B ⇒ A A ⇒ A z A ⇒ z A` shows the terminal `z` can begin a string derived
from `B`: the computed FIRST set misses `z` (the provisional value cached
for `A` during the aborted left-recursive scan is later read back as if
final), refuting the claim that a successful FIRST computation returns
exactly the terminals that can begin a derived string.  The ε part is
consistent here: ε is in the computed set and `B ⇒* ε`. -/
theorem c3_first_set_misses_terminal :
    (fromCfg "A -> A z | E\nB -> A A" "A").toOption = some c3g
    ∧ (firstSeq orderInsertion c3g 30 c3g.firstSets [Tok.nonterm "B"]).toOption.map
        Prod.fst = some [epsT]
    ∧ "z" ∉ [epsT]
    ∧ Derives c3g [Tok.nonterm "B"] [Tok.term "z", Tok.nonterm "A"] := by
  refine ⟨by decide, by decide, by decide, ?_⟩
  have h1 : DStep c3g [Tok.nonterm "B"] [Tok.nonterm "A", Tok.nonterm "A"] := by
    have := DStep.replace (g := c3g) [] []
      ⟨"B", [Tok.nonterm "A", Tok.nonterm "A"]⟩ (by decide)
    simpa [tailWithoutEps] using this
  have h2 : DStep c3g [Tok.nonterm "A", Tok.nonterm "A"]
      [Tok.nonterm "A", Tok.term "z", Tok.nonterm "A"] := by
    have := DStep.replace (g := c3g) [] [Tok.nonterm "A"]
      ⟨"A", [Tok.nonterm "A", Tok.term "z"]⟩ (by decide)
    simpa [tailWithoutEps] using this
  have h3 : DStep c3g [Tok.nonterm "A", Tok.term "z", Tok.nonterm "A"]
      [Tok.term "z", Tok.nonterm "A"] := by
    have := DStep.replace (g := c3g) [] [Tok.term "z", Tok.nonterm "A"]
      ⟨"A", [Tok.term "E"]⟩ (by decide)
    simpa [tailWithoutEps] using this
  exact Relation.ReflTransGen.head h1 (Relation.ReflTransGen.head h2
    (Relation.ReflTransGen.single h3))

end LR
namespace LR

/-! ## C6 -/

/-- `Item::goto` succeeds exactly on the expected token. -/
theorem item_goto_isSome (i : Item) (t : Tok) :
    (i.goto t).isSome = true ↔ i.expected = some t := by
  unfold Item.goto
  cases h : i.expected with
  | none => simp
  | some e =>
    by_cases he : e = t
    · subst he; simp
    · simp [he]

/-- The expected symbol of an item is never the ε terminal, because ε is
filtered out of the effective tail. -/
theorem expected_ne_eps (i : Item) : i.expected ≠ some (Tok.term epsT) := by
  intro h
  have hm : Tok.term epsT ∈ tailWithoutEps i.prod := by
    unfold Item.expected at h
    exact List.get?_mem h
  unfold tailWithoutEps at hm
  have := (List.mem_filter.mp hm).2
  simp at this

/-- ε never moves any item, so the moved set of `ItemSet::goto` on ε is
empty. -/
theorem goto_eps_moved_nil (items : List Item) :
    items.filterMap (fun i => i.goto (Tok.term epsT)) = [] := by
  rw [List.filterMap_eq_nil_iff]
  intro i _
  cases h : i.goto (Tok.term epsT) with
  | none => rfl
  | some j =>
    have : (i.goto (Tok.term epsT)).isSome = true := by rw [h]; rfl
    exact absurd ((item_goto_isSome i _).mp this) (expected_ne_eps i)

/-- C6: whenever `ItemSet::goto(s, t)` returns without a panic, it returns
Some item set exactly when some item of `s` expects `t`; no item ever has
expected = ε (ε is excluded from the effective tail), and goto on ε
always returns None. -/
theorem c6_goto_defined_iff_expected (po : ProdOrder) (g : Grammar)
    (fuel lf : Nat) (items : List Item) (tok : Tok) (st : FirstCache) :
    (∀ r st2, ItemSet.goto po g fuel lf items tok st = .ok (r, st2) →
      (r.isSome = true ↔ ∃ i ∈ items, i.expected = some tok))
    ∧ (∀ i : Item, i.expected ≠ some (Tok.term epsT))
    ∧ ItemSet.goto po g fuel lf items (Tok.term epsT) st = .ok (none, st) := by
  refine ⟨?_, expected_ne_eps, ?_⟩
  · intro r st2 h
    unfold ItemSet.goto at h
    by_cases hemp : (items.filterMap (fun i => i.goto tok)).isEmpty
    · rw [if_pos hemp] at h
      obtain ⟨rfl, -⟩ : r = none ∧ st2 = st := by
        cases h; exact ⟨rfl, rfl⟩
      simp only [Option.isSome_none, Bool.false_eq_true, false_iff]
      rintro ⟨i, hi, hexp⟩
      have : (i.goto tok).isSome = true := (item_goto_isSome i tok).mpr hexp
      have hnil := List.isEmpty_iff.mp hemp
      rw [List.filterMap_eq_nil_iff] at hnil
      rw [hnil i hi] at this
      exact absurd this (by simp)
    · rw [if_neg hemp] at h
      have hne := List.isEmpty_eq_false_iff_exists_mem.mp (by
        cases hval : (items.filterMap (fun i => i.goto tok)).isEmpty
        · rfl
        · exact absurd hval hemp)
      obtain ⟨j, hj⟩ := hne
      obtain ⟨i, hi, hij⟩ := List.mem_filterMap.mp hj
      have hexp : i.expected = some tok := by
        apply (item_goto_isSome i tok).mp
        rw [hij]; rfl
      cases hcl : ItemSet.closure po g fuel lf
          (toSorted cmpItem (items.filterMap (fun i => i.goto tok))) st with
      | error e => rw [hcl] at h; cases h
      | ok p =>
        rw [hcl] at h
        cases h
        simp only [Option.isSome_some, true_iff]
        exact ⟨i, hi, hexp⟩
  · unfold ItemSet.goto
    rw [goto_eps_moved_nil]
    rfl

/-- Witness for C6 at a concrete input: in the item set
`{A -> a · b}` the goto on `b` is defined (some item expects `b`). -/
theorem c6_goto_defined_iff_expected_witness :
    ((some [(⟨⟨"A", [Tok.term "a", Tok.term "b"]⟩, 2,
        ["eof"]⟩ : Item)] : Option (List Item)).isSome = true
      ↔ ∃ i ∈ [(⟨⟨"A", [Tok.term "a", Tok.term "b"]⟩, 1, ["eof"]⟩ : Item)],
          i.expected = some (Tok.term "b")) := by
  have h := (c6_goto_defined_iff_expected orderInsertion
    ⟨[], [], [], "A", []⟩ 30 30
    [⟨⟨"A", [Tok.term "a", Tok.term "b"]⟩, 1, ["eof"]⟩] (Tok.term "b") []).1
  exact h (some [⟨⟨"A", [Tok.term "a", Tok.term "b"]⟩, 2, ["eof"]⟩]) []
    (by decide)

end LR
namespace LR

/-! ## C9 -/

/-- C9: the sequence-level FIRST computation, on a non-terminal whose
computation reports a recompute need, retries exactly once with
`recalc = true`; if the flag is still set it fails with
`UnresolvableFirstSet`, and otherwise it continues with the recomputed
set (extending the accumulator with its non-ε elements and passing
through exactly when the recomputed set contains ε). -/
theorem c9_first_set_retries_once (po : ProdOrder) (g : Grammar)
    (fuel : Nat) (nt : String) (rest : List Tok) (fs : List String)
    (st st1 : FirstCache) (s : List String)
    (h : calcFirst po g fuel st nt false = .ok (true, s, st1)) :
    (∀ s2 st2, calcFirst po g fuel st1 nt true = .ok (true, s2, st2) →
      firstSetGo po g fuel (Tok.nonterm nt :: rest) fs st =
        .error .unresolvableFirstSet)
    ∧ (∀ s2 st2, calcFirst po g fuel st1 nt true = .ok (false, s2, st2) →
      firstSetGo po g fuel (Tok.nonterm nt :: rest) fs st =
        (if epsT ∈ s2 then firstSetGo po g fuel rest (extendNonEps fs s2) st2
         else .ok (extendNonEps fs s2, st2))) := by
  constructor
  · intro s2 st2 h2
    simp only [firstSetGo, h, h2]
    simp
  · intro s2 st2 h2
    simp only [firstSetGo, h, h2]
    simp

end LR
namespace LR

/-- The grammar parsed from `A -> A a | b` with start `A` (directly
left-recursive; used as the C9 witness input). -/
def c9g : Grammar :=
  { prods := [⟨"A", [Tok.nonterm "A", Tok.term "a"]⟩, ⟨"A", [Tok.term "b"]⟩]
    prodIndexes := [(⟨"A", [Tok.nonterm "A", Tok.term "a"]⟩, 0),
                    (⟨"A", [Tok.term "b"]⟩, 1)]
    tokens := [Tok.term "a", Tok.term "b", Tok.term "E", Tok.term "eof",
               Tok.nonterm "A"]
    start := "A"
    firstSets := [("A", FirstState.notPresense)] }

/-- Witness for C9: on the left-recursive grammar `A -> A a | b`, the
first computation of `A` reports a recompute need, the single retry still
reports it, and the sequence-level FIRST computation therefore fails with
`UnresolvableFirstSet`. -/
theorem c9_first_set_retries_once_witness :
    firstSetGo orderInsertion c9g 30 [Tok.nonterm "A"] []
      c9g.firstSets = .error .unresolvableFirstSet := by
  exact (c9_first_set_retries_once orderInsertion c9g 30 "A" [] []
    c9g.firstSets [("A", FirstState.presense ["b"])] ["b"] (by decide)).1
    ["b"] [("A", FirstState.presense ["b"])] (by decide)

end LR
namespace LR

/-! ## C2 -/

/-- The augmented grammar of `S -> c x | A y; A -> c` (start `S`), the C2
failing input. -/
def c2g : Grammar :=
  { prods := [⟨"Sprime", [Tok.nonterm "S"]⟩,
              ⟨"S", [Tok.term "c", Tok.term "x"]⟩,
              ⟨"S", [Tok.nonterm "A", Tok.term "y"]⟩,
              ⟨"A", [Tok.term "c"]⟩]
    prodIndexes := [(⟨"S", [Tok.term "c", Tok.term "x"]⟩, 1),
                    (⟨"S", [Tok.nonterm "A", Tok.term "y"]⟩, 2),
                    (⟨"A", [Tok.term "c"]⟩, 3),
                    (⟨"Sprime", [Tok.nonterm "S"]⟩, 0)]
    tokens := [Tok.term "c", Tok.term "x", Tok.term "y", Tok.term "E",
               Tok.term "eof", Tok.nonterm "A", Tok.nonterm "S",
               Tok.nonterm "Sprime"]
    start := "Sprime"
    firstSets := [("A", FirstState.notPresense), ("S", FirstState.notPresense),
                  ("Sprime", FirstState.notPresense)] }

/-- The canonical collection of `c2g` as built by `Family::from_grammar`. -/
def c2fam : Family :=
  { itemSets := [[⟨⟨"A", [Tok.term "c"]⟩, 0, ["y"]⟩,
                  ⟨⟨"S", [Tok.term "c", Tok.term "x"]⟩, 0, ["eof"]⟩,
                  ⟨⟨"S", [Tok.nonterm "A", Tok.term "y"]⟩, 0, ["eof"]⟩,
                  ⟨⟨"Sprime", [Tok.nonterm "S"]⟩, 0, ["eof"]⟩],
                 [⟨⟨"A", [Tok.term "c"]⟩, 1, ["y"]⟩,
                  ⟨⟨"S", [Tok.term "c", Tok.term "x"]⟩, 1, ["eof"]⟩],
                 [⟨⟨"S", [Tok.nonterm "A", Tok.term "y"]⟩, 1, ["eof"]⟩],
                 [⟨⟨"Sprime", [Tok.nonterm "S"]⟩, 1, ["eof"]⟩],
                 [⟨⟨"S", [Tok.term "c", Tok.term "x"]⟩, 2, ["eof"]⟩],
                 [⟨⟨"S", [Tok.nonterm "A", Tok.term "y"]⟩, 2, ["eof"]⟩]]
    gotos := [(0, [(Tok.term "c", 1), (Tok.nonterm "A", 2), (Tok.nonterm "S", 3)]),
              (1, [(Tok.term "x", 4)]),
              (2, [(Tok.term "y", 5)])] }

/-- C2 counterexample: on `c2g`, ACTION(1, eof) is Empty, and
`panic_action(1, eof)` returns `Reduce 3` (from the reducible item
`A -> c ·`, which sorts first in the item set) even though the
expected-terminal item `S -> c · x` qualifies under step 1 of the claimed
staged order (advancing over `x` gives `S -> c x ·`, whose reduce set
`{eof}` contains the offending terminal): the scan does not consult every
expected-terminal item before using a reducible item. -/
theorem c2_counterexample :
    grammarOfCfg "S -> c x | A y\nA -> c" "S" = some c2g
    ∧ (fromGrammar orderInsertion c2g 30 30 30 c2g.firstSets).toOption.map
        Prod.fst = some c2fam
    ∧ (buildFrom c2fam c2g).map (fun t => t.actionAt 1 eofT)
        = some (some .empty)
    ∧ (panicAction orderInsertion c2g 30 c2fam 1 eofT
        c2g.firstSets).toOption.map Prod.fst = some (PanicAction.reduce 3)
    ∧ (⟨⟨"S", [Tok.term "c", Tok.term "x"]⟩, 1, ["eof"]⟩ : Item)
        ∈ c2fam.itemSets.getD 1 []
    ∧ (Item.mk ⟨"S", [Tok.term "c", Tok.term "x"]⟩ 1 ["eof"]).expected
        = some (Tok.term "x")
    ∧ eofT ∈ ((Item.mk ⟨"S", [Tok.term "c", Tok.term "x"]⟩ 1
        ["eof"]).withDotInc.reduces.getD []) := by
  refine ⟨by decide, by decide, by decide, by decide, by decide, by decide,
    by decide⟩

/-- A family whose single state has two GOTO targets on the same terminal,
exercising the ambiguity branch of panic recovery. -/
def famAmb : Family :=
  { itemSets := [[⟨⟨"S", [Tok.term "a"]⟩, 0, ["eof"]⟩]]
    gotos := [(0, [(Tok.term "a", 1), (Tok.term "a", 2)])] }

/-- C2 as amended: `panic_action` implements single-pass first-match
semantics over the state's items in item-set order — the first item that
settles an action determines the result.  The conjuncts characterize
every branch of the scan: (1) the scan starts from the state's item list;
(2) an exhausted list yields Empty; (3) an item expecting a non-terminal
is skipped; (4) a reducible item immediately yields Accept for production
id 0 and Reduce(p) otherwise, regardless of any later item; (5) an item
expecting terminal x with unique GOTO target yields Shift(x, target) when
the offending terminal is in the advanced item's reduce set, (6) or,
failing that, when it is in the FIRST-with-fallthrough of the advanced
item's remaining tail and lookaheads; (7) an expected-terminal item
qualifying under neither test is skipped, the scan continuing with the
updated FIRST cache; (8) more than one GOTO target on x raises
AmbiguousGrammar. -/
theorem c2_amended (po : ProdOrder) (g : Grammar) (fuel : Nat)
    (fam : Family) (state : Nat) (term : String) :
    (∀ items st, fam.itemSets.get? state = some items →
        panicAction po g fuel fam state term st
          = panicScan po g fuel fam state term items st)
    ∧ (∀ st, panicScan po g fuel fam state term [] st
          = .ok (.empty, st))
    ∧ (∀ i rest st nt, i.expected = some (Tok.nonterm nt) →
        panicScan po g fuel fam state term (i :: rest) st
          = panicScan po g fuel fam state term rest st)
    ∧ (∀ i rest st p, i.expected = none → indexOfProd g i.prod = some p →
        panicScan po g fuel fam state term (i :: rest) st
          = .ok ((if p = 0 then PanicAction.accept else PanicAction.reduce p),
              st))
    ∧ (∀ i rest st x edges dst, i.expected = some (Tok.term x) →
        gotosOf fam state = some edges →
        edges.filterMap
            (fun e => if e.1 = Tok.term x then some e.2 else none) = [dst] →
        (i.withDotInc.reduces.getD []).contains term = true →
        panicScan po g fuel fam state term (i :: rest) st
          = .ok (.shift x dst, st))
    ∧ (∀ i rest st st1 x edges dst fs, i.expected = some (Tok.term x) →
        gotosOf fam state = some edges →
        edges.filterMap
            (fun e => if e.1 = Tok.term x then some e.2 else none) = [dst] →
        (i.withDotInc.reduces.getD []).contains term = false →
        firstSeqFallthrough po g fuel st i.withDotInc.futureSeq
            i.withDotInc.la = .ok (fs, st1) →
        term ∈ fs →
        panicScan po g fuel fam state term (i :: rest) st
          = .ok (.shift x dst, st1))
    ∧ (∀ i rest st st1 x edges dst fs, i.expected = some (Tok.term x) →
        gotosOf fam state = some edges →
        edges.filterMap
            (fun e => if e.1 = Tok.term x then some e.2 else none) = [dst] →
        (i.withDotInc.reduces.getD []).contains term = false →
        firstSeqFallthrough po g fuel st i.withDotInc.futureSeq
            i.withDotInc.la = .ok (fs, st1) →
        ¬ term ∈ fs →
        panicScan po g fuel fam state term (i :: rest) st
          = panicScan po g fuel fam state term rest st1)
    ∧ (∀ i rest st x edges d1 d2 ds, i.expected = some (Tok.term x) →
        gotosOf fam state = some edges →
        edges.filterMap
            (fun e => if e.1 = Tok.term x then some e.2 else none)
          = d1 :: d2 :: ds →
        panicScan po g fuel fam state term (i :: rest) st
          = .error .ambiguousGrammar) := by
  refine ⟨?_, ?_, ?_, ?_, ?_, ?_, ?_, ?_⟩
  · intro items st h
    unfold panicAction
    rw [h]
  · intro st
    rfl
  · intro i rest st nt h
    simp only [panicScan, h]
  · intro i rest st p h hp
    simp only [panicScan, h, hp]
    split <;> rfl
  · intro i rest st x edges dst hx hg hf hr
    simp only [panicScan, hx, hg, hf, hr, if_true]
  · intro i rest st st1 x edges dst fs hx hg hf hr hff hmem
    simp only [panicScan, hx, hg, hf, hr, hff]
    simp [hmem]
  · intro i rest st st1 x edges dst fs hx hg hf hr hff hmem
    simp only [panicScan, hx, hg, hf, hr, hff]
    simp [hmem]
  · intro i rest st x edges d1 d2 ds hx hg hf
    simp only [panicScan, hx, hg, hf]

/-- Witness for C2's amended claim: each branch of the first-match scan
exercised at a concrete input on `c2g`/`c2fam` (and `famAmb` for the
ambiguity branch) — in particular state 1 on eof returns `Reduce 3` from
the leading reducible item, state 2 on eof shifts via the reduce-set
test, and state 0 on eof skips the non-qualifying first item and shifts
via the fallthrough test on the second. -/
theorem c2_amended_witness :
    panicAction orderInsertion c2g 30 c2fam 1 eofT c2g.firstSets
      = panicScan orderInsertion c2g 30 c2fam 1 eofT
          [⟨⟨"A", [Tok.term "c"]⟩, 1, ["y"]⟩,
           ⟨⟨"S", [Tok.term "c", Tok.term "x"]⟩, 1, ["eof"]⟩] c2g.firstSets
    ∧ panicScan orderInsertion c2g 30 c2fam 1 eofT [] c2g.firstSets
      = .ok (.empty, c2g.firstSets)
    ∧ panicScan orderInsertion c2g 30 c2fam 0 eofT
          [⟨⟨"Sprime", [Tok.nonterm "S"]⟩, 0, ["eof"]⟩] c2g.firstSets
      = panicScan orderInsertion c2g 30 c2fam 0 eofT [] c2g.firstSets
    ∧ panicScan orderInsertion c2g 30 c2fam 1 eofT
          [⟨⟨"A", [Tok.term "c"]⟩, 1, ["y"]⟩,
           ⟨⟨"S", [Tok.term "c", Tok.term "x"]⟩, 1, ["eof"]⟩] c2g.firstSets
      = .ok (.reduce 3, c2g.firstSets)
    ∧ panicScan orderInsertion c2g 30 c2fam 2 eofT
          [⟨⟨"S", [Tok.nonterm "A", Tok.term "y"]⟩, 1, ["eof"]⟩] c2g.firstSets
      = .ok (.shift "y" 5, c2g.firstSets)
    ∧ panicScan orderInsertion c2g 30 c2fam 0 eofT
          [⟨⟨"S", [Tok.term "c", Tok.term "x"]⟩, 0, ["eof"]⟩] c2g.firstSets
      = .ok (.shift "c" 1, c2g.firstSets)
    ∧ panicScan orderInsertion c2g 30 c2fam 0 eofT
          [⟨⟨"A", [Tok.term "c"]⟩, 0, ["y"]⟩,
           ⟨⟨"S", [Tok.term "c", Tok.term "x"]⟩, 0, ["eof"]⟩] c2g.firstSets
      = panicScan orderInsertion c2g 30 c2fam 0 eofT
          [⟨⟨"S", [Tok.term "c", Tok.term "x"]⟩, 0, ["eof"]⟩] c2g.firstSets
    ∧ panicScan orderInsertion c2g 30 famAmb 0 "a"
          [⟨⟨"S", [Tok.term "a"]⟩, 0, ["eof"]⟩] c2g.firstSets
      = .error .ambiguousGrammar := by
  refine ⟨?_, ?_, ?_, ?_, ?_, ?_, ?_, ?_⟩
  · exact (c2_amended orderInsertion c2g 30 c2fam 1 eofT).1 _ _ (by decide)
  · exact (c2_amended orderInsertion c2g 30 c2fam 1 eofT).2.1 _
  · exact (c2_amended orderInsertion c2g 30 c2fam 0 eofT).2.2.1
      ⟨⟨"Sprime", [Tok.nonterm "S"]⟩, 0, ["eof"]⟩ [] c2g.firstSets "S"
      (by decide)
  · have h := (c2_amended orderInsertion c2g 30 c2fam 1 eofT).2.2.2.1
      ⟨⟨"A", [Tok.term "c"]⟩, 1, ["y"]⟩
      [⟨⟨"S", [Tok.term "c", Tok.term "x"]⟩, 1, ["eof"]⟩]
      c2g.firstSets 3 (by decide) (by decide)
    simpa using h
  · exact (c2_amended orderInsertion c2g 30 c2fam 2 eofT).2.2.2.2.1
      ⟨⟨"S", [Tok.nonterm "A", Tok.term "y"]⟩, 1, ["eof"]⟩ [] c2g.firstSets
      "y" [(Tok.term "y", 5)] 5 (by decide) (by decide) (by decide) (by decide)
  · exact (c2_amended orderInsertion c2g 30 c2fam 0 eofT).2.2.2.2.2.1
      ⟨⟨"S", [Tok.term "c", Tok.term "x"]⟩, 0, ["eof"]⟩ [] c2g.firstSets
      c2g.firstSets "c"
      [(Tok.term "c", 1), (Tok.nonterm "A", 2), (Tok.nonterm "S", 3)] 1
      ["eof"] (by decide) (by decide) (by decide) (by decide) (by decide)
      (by decide)
  · exact (c2_amended orderInsertion c2g 30 c2fam 0 eofT).2.2.2.2.2.2.1
      ⟨⟨"A", [Tok.term "c"]⟩, 0, ["y"]⟩
      [⟨⟨"S", [Tok.term "c", Tok.term "x"]⟩, 0, ["eof"]⟩] c2g.firstSets
      c2g.firstSets "c"
      [(Tok.term "c", 1), (Tok.nonterm "A", 2), (Tok.nonterm "S", 3)] 1
      ["y"] (by decide) (by decide) (by decide) (by decide) (by decide)
      (by decide)
  · exact (c2_amended orderInsertion c2g 30 famAmb 0 "a").2.2.2.2.2.2.2
      ⟨⟨"S", [Tok.term "a"]⟩, 0, ["eof"]⟩ [] c2g.firstSets "a"
      [(Tok.term "a", 1), (Tok.term "a", 2)] 1 2 [] (by decide) (by decide)
      (by decide)

end LR
namespace LR

/-! ## C8 -/

/-- Strict sortedness with respect to a comparator (the order of a
`BTreeSet`'s elements). -/
def SortedListBy (f : α → α → Ordering) (l : List α) : Prop :=
  List.Pairwise (fun a b => f a b = .lt) l

instance (f : α → α → Ordering) [DecidableEq α]
    (l : List α) : Decidable (SortedListBy f l) := by
  unfold SortedListBy
  exact List.instDecidablePairwise l

/-- EOF never compares strictly below another terminal. -/
theorem cmpTerm_eof_not_lt (y : String) : cmpTerm eofT y ≠ .lt := by
  unfold cmpTerm
  by_cases hy : y = eofT <;> simp [hy]

/-- C8: the cell that `build_from` writes for a reducible item with
production id `p` at the column of lookahead terminal `t` is Accept
exactly when `p = 0` and `t` is EOF, and Reduce(p) otherwise — the code
compares the column index against the last terminal column, which
identifies EOF because the terminal order places EOF strictly last in the
sorted terminal list. -/
theorem c8_reduce_cell_accept_iff (terms : List String) (t : String)
    (tIdx p : Nat) (hs : SortedListBy cmpTerm terms) (he : eofT ∈ terms)
    (hf : terms.findIdx? (fun x => x = t) = some tIdx) :
    (reduceActionCell terms p tIdx = .accept ↔ (p = 0 ∧ t = eofT))
    ∧ (¬ (p = 0 ∧ t = eofT) → reduceActionCell terms p tIdx = .reduce p) := by
  obtain ⟨hlt, hpt, -⟩ := List.findIdx?_eq_some_iff_getElem.mp hf
  have hti : terms.get? tIdx = some t := by
    rw [List.get?_eq_getElem?, List.getElem?_eq_getElem hlt]
    simpa using hpt
  obtain ⟨k, hk, hke⟩ := List.mem_iff_getElem.mp he
  have hke2 : terms.get? k = some eofT := by
    rw [List.get?_eq_getElem?, List.getElem?_eq_getElem hk, hke]
  have hpw := List.pairwise_iff_getElem.mp hs
  have hpw2 : ∀ i j : Nat, i < j → ∀ x y : String,
      terms.get? i = some x → terms.get? j = some y → cmpTerm x y = .lt := by
    intro i j hij x y hx hy
    have hjl : j < terms.length := by
      by_contra hnl
      rw [List.get?_eq_getElem?, List.getElem?_eq_none (by omega)] at hy
      cases hy
    have hil : i < terms.length := by omega
    have := hpw i j hil hjl hij
    rw [List.get?_eq_getElem?, List.getElem?_eq_getElem hil] at hx
    rw [List.get?_eq_getElem?, List.getElem?_eq_getElem hjl] at hy
    cases hx; cases hy
    exact this
  have hknl : k = terms.length - 1 := by
    by_contra hne
    have hklt : k < terms.length - 1 := by omega
    have hl1 : terms.length - 1 < terms.length := by omega
    obtain ⟨z, hz⟩ : ∃ z, terms.get? (terms.length - 1) = some z := by
      rw [List.get?_eq_getElem?, List.getElem?_eq_getElem hl1]
      exact ⟨_, rfl⟩
    exact cmpTerm_eof_not_lt z (hpw2 k (terms.length - 1) hklt eofT z hke2 hz)
  have hiff : tIdx = terms.length - 1 ↔ t = eofT := by
    rw [← hknl]
    constructor
    · intro hidx
      subst hidx
      rw [hti] at hke2
      exact (Option.some.injEq _ _).mp hke2
    · intro hteof
      subst hteof
      by_cases hik : tIdx = k
      · exact hik
      · by_cases hlt2 : tIdx < k
        · exact absurd (hpw2 tIdx k hlt2 eofT eofT hti hke2)
            (cmpTerm_eof_not_lt eofT)
        · exact absurd (hpw2 k tIdx (by omega) eofT eofT hke2 hti)
            (cmpTerm_eof_not_lt eofT)
  constructor
  · unfold reduceActionCell
    by_cases hc : p = 0 ∧ tIdx = terms.length - 1
    · rw [if_pos hc]
      simp only [true_iff]
      exact ⟨hc.1, hiff.mp hc.2⟩
    · rw [if_neg hc]
      constructor
      · intro h; cases h
      · rintro ⟨h0, hte⟩
        exact absurd ⟨h0, hiff.mpr hte⟩ hc
  · intro hc
    unfold reduceActionCell
    have hnc : ¬ (p = 0 ∧ tIdx = terms.length - 1) := by
      rintro ⟨h0, hidx⟩
      exact hc ⟨h0, hiff.mp hidx⟩
    rw [if_neg hnc]

/-- Witness for C8 at a concrete input: with terminal columns
`[a, E, eof]`, production id 0 and lookahead eof (column 2, the last
one), the written cell is Accept. -/
theorem c8_reduce_cell_accept_iff_witness :
    (reduceActionCell ["a", "E", "eof"] 0 2 = .accept ↔ (0 = 0 ∧ eofT = eofT))
    ∧ (¬ ((0 : Nat) = 0 ∧ eofT = eofT) →
        reduceActionCell ["a", "E", "eof"] 0 2 = .reduce 0) := by
  exact c8_reduce_cell_accept_iff ["a", "E", "eof"] eofT 2 0
    (by decide) (by decide) (by decide)

end LR
namespace LR

/-! ## C10 -/

/-- `updAt` as an element-level description. -/
theorem updAt_getElem? (n m : Nat) (f : α → α) (l : List α) :
    (updAt n f l)[m]? = if n = m then l[m]?.map f else l[m]? := by
  induction l generalizing n m with
  | nil => cases n <;> cases m <;> simp [updAt]
  | cons x xs ih =>
    cases n with
    | zero => cases m <;> simp [updAt]
    | succ n2 =>
      cases m with
      | zero => simp [updAt]
      | succ m2 =>
        simp only [updAt, List.getElem?_cons_succ]
        rw [ih]
        by_cases h : n2 = m2 <;> simp [h]

/-- `updAt` preserves length. -/
theorem updAt_length (n : Nat) (f : α → α) (l : List α) :
    (updAt n f l).length = l.length := by
  induction l generalizing n with
  | nil => cases n <;> simp [updAt]
  | cons x xs ih =>
    cases n with
    | zero => simp [updAt]
    | succ n2 => simp [updAt, ih]

/-- The ACTION cell of an action matrix at a row and column, Empty when
out of range (the initial matrix is all Empty). -/
def cellAt (a : List (List ActionCell)) (row col : Nat) : ActionCell :=
  (a.getD row []).getD col .empty

/-- One `writeAction` leaves every other cell unchanged. -/
theorem writeAction_cell_ne (ab : List (List ActionCell) × Bool)
    (r c row col : Nat) (v : ActionCell) (h : ¬ (r = row ∧ c = col)) :
    cellAt (writeAction ab r c v).1 row col = cellAt ab.1 row col := by
  unfold writeAction cellAt
  by_cases hr : r = row
  · subst hr
    have hc : ¬ c = col := fun hcc => h ⟨rfl, hcc⟩
    cases hq : ab.1[r]? with
    | none =>
      simp [List.getD_eq_getElem?_getD, updAt_getElem?, hq]
    | some rowl =>
      simp [List.getD_eq_getElem?_getD, updAt_getElem?, hq, hc]
  · simp [List.getD_eq_getElem?_getD, updAt_getElem?, hr]

/-- `writeAction` preserves the shape of the matrix. -/
theorem writeAction_length (ab : List (List ActionCell) × Bool)
    (r c : Nat) (v : ActionCell) :
    (writeAction ab r c v).1.length = ab.1.length := by
  unfold writeAction
  exact updAt_length r _ ab.1

end LR
namespace LR

/-- The GOTO-edge writes of one row leave a cell unchanged when no edge of
that row writes to it. -/
theorem rowEdgeWrites_cell_ne (terms nonTerms : List String) (r : Nat)
    (edges : List (Tok × Nat)) (ab : List (List ActionCell) × Bool)
    (gt : List (List (Option Nat))) (out) (state colT : Nat)
    (hb : rowEdgeWrites terms nonTerms r edges ab gt = some out)
    (hne : ∀ tt dst c, (Tok.term tt, dst) ∈ edges →
      terms.findIdx? (fun x => x = tt) = some c → ¬ (r = state ∧ c = colT)) :
    cellAt out.1.1 state colT = cellAt ab.1 state colT := by
  induction edges generalizing ab gt with
  | nil =>
    unfold rowEdgeWrites at hb
    cases hb
    rfl
  | cons e rest ih =>
    obtain ⟨tok, dst⟩ := e
    cases tok with
    | term t =>
      cases hf : terms.findIdx? (fun x => x = t) with
      | none => simp only [rowEdgeWrites, hf] at hb; cases hb
      | some col =>
        simp only [rowEdgeWrites, hf] at hb
        have step := ih (writeAction ab r col (.shift dst)) gt hb
          (fun tt dst2 c hmem hfi => hne tt dst2 c (by simp [hmem]) hfi)
        rw [step, writeAction_cell_ne]
        exact hne t dst col (by simp) hf
    | nonterm nt =>
      cases hf : nonTerms.findIdx? (fun x => x = nt) with
      | none => simp only [rowEdgeWrites, hf] at hb; cases hb
      | some col =>
        simp only [rowEdgeWrites, hf] at hb
        exact ih ab _ hb
          (fun tt dst2 c hmem hfi => hne tt dst2 c (by simp [hmem]) hfi)

/-- The reduce writes of one row leave a cell unchanged when no reduce of
that row writes to it. -/
theorem rowReduceWrites_cell_ne (g : Grammar) (terms : List String)
    (r : Nat) (rl : List (Item × String)) (ab : List (List ActionCell) × Bool)
    (out) (state colT : Nat)
    (hb : rowReduceWrites g terms r rl ab = some out)
    (hne : ∀ i tt c, (i, tt) ∈ rl →
      terms.findIdx? (fun x => x = tt) = some c → ¬ (r = state ∧ c = colT)) :
    cellAt out.1 state colT = cellAt ab.1 state colT := by
  induction rl generalizing ab with
  | nil =>
    unfold rowReduceWrites at hb
    cases hb
    rfl
  | cons e rest ih =>
    obtain ⟨i, t⟩ := e
    cases hp : indexOfProd g i.prod with
    | none => simp only [rowReduceWrites, hp] at hb; cases hb
    | some pIdx =>
      cases hf : terms.findIdx? (fun x => x = t) with
      | none => simp only [rowReduceWrites, hp, hf] at hb; cases hb
      | some tIdx =>
        simp only [rowReduceWrites, hp, hf] at hb
        have step := ih (writeAction ab r tIdx (reduceActionCell terms pIdx tIdx)) hb
          (fun i2 tt c hmem hfi => hne i2 tt c (by simp [hmem]) hfi)
        rw [step, writeAction_cell_ne]
        exact hne i t tIdx (by simp) hf

end LR
namespace LR

/-- `rowEdgeWrites` preserves the number of ACTION rows. -/
theorem rowEdgeWrites_length (terms nonTerms : List String) (r : Nat)
    (edges : List (Tok × Nat)) (ab : List (List ActionCell) × Bool)
    (gt : List (List (Option Nat))) (out)
    (hb : rowEdgeWrites terms nonTerms r edges ab gt = some out) :
    out.1.1.length = ab.1.length := by
  induction edges generalizing ab gt with
  | nil =>
    unfold rowEdgeWrites at hb
    cases hb
    rfl
  | cons e rest ih =>
    obtain ⟨tok, dst⟩ := e
    cases tok with
    | term t =>
      cases hf : terms.findIdx? (fun x => x = t) with
      | none => simp only [rowEdgeWrites, hf] at hb; cases hb
      | some col =>
        simp only [rowEdgeWrites, hf] at hb
        rw [ih (writeAction ab r col (.shift dst)) gt hb]
        exact writeAction_length ab r col _
    | nonterm nt =>
      cases hf : nonTerms.findIdx? (fun x => x = nt) with
      | none => simp only [rowEdgeWrites, hf] at hb; cases hb
      | some col =>
        simp only [rowEdgeWrites, hf] at hb
        exact ih ab _ hb

/-- `rowReduceWrites` preserves the number of ACTION rows. -/
theorem rowReduceWrites_length (g : Grammar) (terms : List String)
    (r : Nat) (rl : List (Item × String)) (ab : List (List ActionCell) × Bool)
    (out) (hb : rowReduceWrites g terms r rl ab = some out) :
    out.1.length = ab.1.length := by
  induction rl generalizing ab with
  | nil =>
    unfold rowReduceWrites at hb
    cases hb
    rfl
  | cons e rest ih =>
    obtain ⟨i, t⟩ := e
    cases hp : indexOfProd g i.prod with
    | none => simp only [rowReduceWrites, hp] at hb; cases hb
    | some pIdx =>
      cases hf : terms.findIdx? (fun x => x = t) with
      | none => simp only [rowReduceWrites, hp, hf] at hb; cases hb
      | some tIdx =>
        simp only [rowReduceWrites, hp, hf] at hb
        rw [ih (writeAction ab r tIdx (reduceActionCell terms pIdx tIdx)) hb]
        exact writeAction_length ab r tIdx _

/-- `buildRows` preserves the number of ACTION rows. -/
theorem buildRows_length (g : Grammar) (fam : Family)
    (terms nonTerms : List String) (rows : List (Nat × List Item))
    (ab : List (List ActionCell) × Bool) (gt : List (List (Option Nat))) (out)
    (hb : buildRows g fam terms nonTerms rows ab gt = some out) :
    out.1.1.length = ab.1.length := by
  induction rows generalizing ab gt with
  | nil =>
    unfold buildRows at hb
    cases hb
    rfl
  | cons e rest ih =>
    obtain ⟨row, is⟩ := e
    cases he : rowEdgeWrites terms nonTerms row ((gotosOf fam row).getD []) ab gt with
    | none => simp only [buildRows, he] at hb; cases hb
    | some p1 =>
      cases hr : rowReduceWrites g terms row (ItemSet.reduces is) p1.1 with
      | none => simp only [buildRows, he, hr] at hb; cases hb
      | some ab2 =>
        simp only [buildRows, he, hr] at hb
        rw [ih ab2 p1.2 hb]
        rw [rowReduceWrites_length g terms row _ p1.1 ab2 hr]
        exact rowEdgeWrites_length terms nonTerms row _ ab gt p1 he

/-- `buildRows` leaves a cell unchanged when no write of any processed
row targets it. -/
theorem buildRows_cell_ne (g : Grammar) (fam : Family)
    (terms nonTerms : List String) (rows : List (Nat × List Item))
    (ab : List (List ActionCell) × Bool) (gt : List (List (Option Nat))) (out)
    (state colT : Nat)
    (hb : buildRows g fam terms nonTerms rows ab gt = some out)
    (hne : ∀ r is, (r, is) ∈ rows → r = state →
      (∀ tt dst c, (Tok.term tt, dst) ∈ (gotosOf fam r).getD [] →
        terms.findIdx? (fun x => x = tt) = some c → c ≠ colT)
      ∧ (∀ i tt c, (i, tt) ∈ ItemSet.reduces is →
        terms.findIdx? (fun x => x = tt) = some c → c ≠ colT)) :
    cellAt out.1.1 state colT = cellAt ab.1 state colT := by
  induction rows generalizing ab gt with
  | nil =>
    unfold buildRows at hb
    cases hb
    rfl
  | cons e rest ih =>
    obtain ⟨row, is⟩ := e
    cases he : rowEdgeWrites terms nonTerms row ((gotosOf fam row).getD []) ab gt with
    | none => simp only [buildRows, he] at hb; cases hb
    | some p1 =>
      cases hr : rowReduceWrites g terms row (ItemSet.reduces is) p1.1 with
      | none => simp only [buildRows, he, hr] at hb; cases hb
      | some ab2 =>
        simp only [buildRows, he, hr] at hb
        have h3 := ih ab2 p1.2 hb
          (fun r2 is2 hmem => hne r2 is2 (by simp [hmem]))
        rw [h3]
        have h2 := rowReduceWrites_cell_ne g terms row _ p1.1 ab2 state colT hr
          (by
            intro i tt c hmem hfi
            rintro ⟨rfl, rfl⟩
            exact ((hne row is (by simp) rfl).2 i tt c hmem hfi) rfl)
        rw [h2]
        exact rowEdgeWrites_cell_ne terms nonTerms row _ ab gt p1 state colT he
          (by
            intro tt dst c hmem hfi
            rintro ⟨rfl, rfl⟩
            exact ((hne row is (by simp) rfl).1 tt dst c hmem hfi) rfl)

end LR
namespace LR

/-- In a token set sorted by the token order, membership in the terminal
columns is exactly terminal membership in the token set (terminals form a
prefix because the order places them before non-terminals). -/
theorem mem_termsOf_iff (toks : List Tok) (hs : SortedListBy cmpTok toks)
    (term : String) :
    term ∈ (toks.takeWhile tokIsTerm).map tokStr ↔ Tok.term term ∈ toks := by
  constructor
  · intro h
    obtain ⟨tok, htk, hstr⟩ := List.mem_map.mp h
    have hmem : tok ∈ toks := (List.takeWhile_sublist tokIsTerm).subset htk
    have hterm : tokIsTerm tok = true := List.mem_takeWhile_imp htk
    cases tok with
    | term s =>
      cases hstr
      exact hmem
    | nonterm s => cases hterm
  · intro h
    induction toks with
    | nil => cases h
    | cons x xs ih =>
      cases hx : tokIsTerm x with
      | true =>
        rw [List.takeWhile_cons_of_pos hx]
        cases List.mem_cons.mp h with
        | inl heq =>
          subst heq
          exact List.mem_map.mpr ⟨Tok.term term, by simp, rfl⟩
        | inr hmem =>
          have hxs := ih (List.Pairwise.sublist (List.sublist_cons_self x xs) hs) hmem
          simp only [List.map_cons, List.mem_cons]
          right
          exact hxs
      | false =>
        cases x with
        | term s => cases hx
        | nonterm s =>
          cases List.mem_cons.mp h with
          | inl heq => cases heq
          | inr hmem =>
            have := (List.pairwise_cons.mp hs).1 (Tok.term term) hmem
            simp [cmpTok] at this

/-- Whether table construction writes to ACTION[state][term]: a GOTO edge
on that terminal, or a reducible item with that lookahead. -/
def actionWritten (fam : Family) (state : Nat) (term : String) : Prop :=
  (∃ dst, (Tok.term term, dst) ∈ (gotosOf fam state).getD [])
  ∨ (∃ i, (i, term) ∈ ItemSet.reduces (fam.itemSets.getD state []))

/-- C10: for a table built by `build_from` over a sorted token set, the
`action` query returns None exactly when the terminal is not in the
grammar's token set or the state is not a state of the family; for every
in-range state and known terminal it returns Some cell, and that cell is
Empty when table construction never wrote to it. -/
theorem c10_action_none_iff (fam : Family) (g : Grammar) (t : Table)
    (hs : SortedListBy cmpTok g.tokens) (hb : buildFrom fam g = some t)
    (state : Nat) (term : String) :
    (t.actionAt state term = none ↔
      (Tok.term term ∉ g.tokens ∨ fam.itemSets.length ≤ state))
    ∧ (Tok.term term ∈ g.tokens → state < fam.itemSets.length →
        ∃ c, t.actionAt state term = some c)
    ∧ (Tok.term term ∈ g.tokens → state < fam.itemSets.length →
        ¬ actionWritten fam state term →
        t.actionAt state term = some ActionCell.empty) := by
  cases hnt : nonTermsOf g with
  | none => simp only [buildFrom, hnt] at hb; cases hb
  | some nonTerms =>
    cases hbr : buildRows g fam (termsOf g) nonTerms fam.itemSets.enum
        (List.replicate fam.itemSets.length
          (List.replicate (termsOf g).length ActionCell.empty), false)
        (List.replicate fam.itemSets.length
          (List.replicate nonTerms.length (none : Option Nat))) with
    | none => simp only [buildFrom, hnt, hbr] at hb; cases hb
    | some out =>
      have ht : t = ⟨out.1.1, out.2, termsOf g, nonTerms, out.1.2⟩ := by
        simp only [buildFrom, hnt, hbr] at hb
        cases hb
        rfl
      subst ht
      have hlen : out.1.1.length = fam.itemSets.length := by
        rw [buildRows_length g fam _ _ _ _ _ _ hbr]
        exact List.length_replicate _ _
      have hmem := mem_termsOf_iff g.tokens hs term
      constructor
      · unfold Table.actionAt
        cases hfi : (termsOf g).findIdx? (fun x => x = term) with
        | none =>
          simp only [true_iff]
          left
          rw [← hmem]
          intro hin
          rw [List.findIdx?_eq_none_iff] at hfi
          have := hfi term hin
          simp at this
        | some col =>
          have htm : term ∈ termsOf g := by
            obtain ⟨hlt, hp, -⟩ := List.findIdx?_eq_some_iff_getElem.mp hfi
            have : (termsOf g)[col] = term := by simpa using hp
            rw [← this]
            exact List.getElem_mem hlt
          cases hg : out.1.1.get? state with
          | none =>
            rw [List.get?_eq_none] at hg
            simp only [true_iff]
            right
            omega
          | some row =>
            simp only [Option.some_ne_none, false_iff]
            rintro (hout | hge)
            · exact hout (hmem.mp htm)
            · have : out.1.1.get? state = none := List.get?_eq_none.mpr (by omega)
              rw [this] at hg
              cases hg
      · constructor
        · intro hin hlt
          unfold Table.actionAt
          cases hfi : (termsOf g).findIdx? (fun x => x = term) with
          | none =>
            rw [List.findIdx?_eq_none_iff] at hfi
            have := hfi term (hmem.mpr hin)
            simp at this
          | some col =>
            cases hg : out.1.1.get? state with
            | none =>
              rw [List.get?_eq_none] at hg
              omega
            | some row => exact ⟨row.getD col .empty, rfl⟩
        · intro hin hlt hnw
          unfold Table.actionAt
          cases hfi : (termsOf g).findIdx? (fun x => x = term) with
          | none =>
            rw [List.findIdx?_eq_none_iff] at hfi
            have := hfi term (hmem.mpr hin)
            simp at this
          | some col =>
            obtain ⟨hcl, hcp, -⟩ := List.findIdx?_eq_some_iff_getElem.mp hfi
            have hcol : (termsOf g)[col] = term := by simpa using hcp
            have hcell := buildRows_cell_ne g fam (termsOf g) nonTerms
              fam.itemSets.enum _ _ out state col hbr (by
                intro r is hmemr hreq
                subst hreq
                obtain ⟨hrl, hise⟩ := List.mem_enum hmemr
                have hterm2 : (termsOf g)[col]? = some term := by
                  rw [List.getElem?_eq_getElem hcl, hcol]
                constructor
                · intro tt dst c hedge hfc
                  intro hceq
                  obtain ⟨hl2, hp2, -⟩ := List.findIdx?_eq_some_iff_getElem.mp hfc
                  have htt : (termsOf g)[c]? = some tt := by
                    rw [List.getElem?_eq_getElem hl2]
                    simpa using hp2
                  rw [hceq, hterm2] at htt
                  cases htt
                  exact hnw (Or.inl ⟨dst, hedge⟩)
                · intro i tt c hred hfc
                  intro hceq
                  obtain ⟨hl2, hp2, -⟩ := List.findIdx?_eq_some_iff_getElem.mp hfc
                  have htt : (termsOf g)[c]? = some tt := by
                    rw [List.getElem?_eq_getElem hl2]
                    simpa using hp2
                  rw [hceq, hterm2] at htt
                  cases htt
                  apply hnw
                  right
                  refine ⟨i, ?_⟩
                  have hgetd : fam.itemSets.getD r [] = is := by
                    rw [List.getD_eq_getElem?_getD, List.getElem?_eq_getElem hrl, hise]
                    rfl
                  rw [hgetd]
                  exact hred)
            have hinit : cellAt (List.replicate fam.itemSets.length
                (List.replicate (termsOf g).length ActionCell.empty)) state col
                = .empty := by
              unfold cellAt
              by_cases h1 : state < fam.itemSets.length <;>
                by_cases h2 : col < (termsOf g).length <;>
                  simp [List.getD_eq_getElem?_getD, List.getElem?_replicate, h1, h2]
            cases hg : out.1.1.get? state with
            | none =>
              rw [List.get?_eq_none] at hg
              omega
            | some row =>
              have hrow : out.1.1.getD state [] = row := by
                rw [List.getD_eq_getElem?_getD, ← List.get?_eq_getElem?, hg]
                rfl
              have hca : cellAt out.1.1 state col = row.getD col .empty := by
                unfold cellAt
                rw [hrow]
              simp only [hg]
              rw [← hca, hcell, hinit]

end LR
namespace LR

/-- The table built from `c2fam` over `c2g`. -/
def c2table : Table :=
  { action := [[.shift 1, .empty, .empty, .empty, .empty],
               [.empty, .shift 4, .reduce 3, .empty, .empty],
               [.empty, .empty, .shift 5, .empty, .empty],
               [.empty, .empty, .empty, .empty, .accept],
               [.empty, .empty, .empty, .empty, .reduce 1],
               [.empty, .empty, .empty, .empty, .reduce 2]]
    gotoTbl := [[some 2, some 3, none],
                [none, none, none], [none, none, none], [none, none, none],
                [none, none, none], [none, none, none]]
    terms := ["c", "x", "y", "E", "eof"]
    nonTerms := ["A", "S", "Sprime"]
    conflict := false }

/-- Witness for C10 at a concrete input: in `c2table`, state 1 is in
range, `E` is a terminal of the token set, no write targets
ACTION[1][E], and the query returns Some Empty. -/
theorem c10_action_none_iff_witness :
    c2table.actionAt 1 "E" = some ActionCell.empty := by
  have h := c10_action_none_iff c2fam c2g c2table (by decide) (by decide) 1 "E"
  refine h.2.2 (by decide) (by decide) ?_
  have hnw : ¬ ((∃ dst, (Tok.term "E", dst) ∈ (gotosOf c2fam 1).getD [])
      ∨ (∃ i, (i, "E") ∈ ItemSet.reduces (c2fam.itemSets.getD 1 []))) := by
    rintro (⟨dst, hmem⟩ | ⟨i, hmem⟩)
    · have hor := List.mem_cons.mp hmem
      rcases hor with h1 | h2
      · simp at h1
      · simp at h2
    · have : ItemSet.reduces (c2fam.itemSets.getD 1 []) =
          [(⟨⟨"A", [Tok.term "c"]⟩, 1, ["y"]⟩, "y")] := by decide
      rw [this] at hmem
      have hor := List.mem_cons.mp hmem
      rcases hor with h1 | h2
      · simp at h1
      · simp at h2
  exact hnw

end LR
namespace LR

/-! ## C5 supporting development: the merged property -/

/-- Char-list comparison is equality-faithful. -/
theorem cmpChars_eq (a b : List Char) (h : cmpChars a b = .eq) : a = b := by
  induction a generalizing b with
  | nil => cases b with
    | nil => rfl
    | cons y ys => simp [cmpChars] at h
  | cons x xs ih =>
    cases b with
    | nil => simp [cmpChars] at h
    | cons y ys =>
      unfold cmpChars at h
      by_cases h1 : x.toNat < y.toNat
      · rw [if_pos h1] at h; cases h
      · rw [if_neg h1] at h
        by_cases h2 : y.toNat < x.toNat
        · rw [if_pos h2] at h; cases h
        · rw [if_neg h2] at h
          have hxy : x = y := Char.eq_of_val_eq (by
            have : x.toNat = y.toNat := by omega
            exact UInt32.toNat.inj this)
          rw [hxy, ih ys h]

/-- String comparison is equality-faithful. -/
theorem cmpStr_eq (a b : String) (h : cmpStr a b = .eq) : a = b :=
  String.ext (cmpChars_eq a.data b.data h)

/-- Terminal comparison is equality-faithful. -/
theorem cmpTerm_eq (a b : String) (h : cmpTerm a b = .eq) : a = b := by
  unfold cmpTerm at h
  by_cases h1 : a = eofT ∧ b = eofT
  · rw [h1.1, h1.2]
  · rw [if_neg h1] at h
    by_cases h2 : b = eofT
    · rw [if_pos h2] at h; cases h
    · rw [if_neg h2] at h
      by_cases h3 : a = eofT
      · rw [if_pos h3] at h; cases h
      · rw [if_neg h3] at h
        by_cases h4 : a = epsT ∧ b = epsT
        · rw [h4.1, h4.2]
        · rw [if_neg h4] at h
          by_cases h5 : b = epsT
          · rw [if_pos h5] at h; cases h
          · rw [if_neg h5] at h
            by_cases h6 : a = epsT
            · rw [if_pos h6] at h; cases h
            · rw [if_neg h6] at h
              cases hc : compare a.length b.length with
              | lt => rw [hc] at h; cases h
              | gt => rw [hc] at h; cases h
              | eq => rw [hc] at h; exact cmpStr_eq a b h

/-- Token comparison is equality-faithful. -/
theorem cmpTok_eq (a b : Tok) (h : cmpTok a b = .eq) : a = b := by
  cases a <;> cases b <;> simp [cmpTok] at h ⊢
  · exact cmpTerm_eq _ _ h
  · exact cmpStr_eq _ _ h

/-- Lexicographic list comparison is equality-faithful. -/
theorem cmpListWith_eq (f : α → α → Ordering)
    (hf : ∀ x y, f x y = .eq → x = y) (a b : List α)
    (h : cmpListWith f a b = .eq) : a = b := by
  induction a generalizing b with
  | nil => cases b with
    | nil => rfl
    | cons y ys => simp [cmpListWith] at h
  | cons x xs ih =>
    cases b with
    | nil => simp [cmpListWith] at h
    | cons y ys =>
      unfold cmpListWith at h
      cases hxy : f x y with
      | lt => rw [hxy] at h; cases h
      | gt => rw [hxy] at h; cases h
      | eq =>
        rw [hxy] at h
        rw [hf x y hxy, ih ys h]

/-- Production comparison is equality-faithful. -/
theorem cmpProd_eq (a b : Production) (h : cmpProd a b = .eq) : a = b := by
  unfold cmpProd at h
  cases hh : cmpStr a.head b.head with
  | lt => rw [hh] at h; cases h
  | gt => rw [hh] at h; cases h
  | eq =>
    rw [hh] at h
    cases a; cases b
    cases cmpStr_eq _ _ hh
    cases cmpListWith_eq cmpTok cmpTok_eq _ _ h
    rfl

/-- Item comparison is equality-faithful. -/
theorem cmpItem_eq (a b : Item) (h : cmpItem a b = .eq) : a = b := by
  unfold cmpItem at h
  cases hp : cmpProd a.prod b.prod with
  | lt => rw [hp] at h; cases h
  | gt => rw [hp] at h; cases h
  | eq =>
    rw [hp] at h
    cases hd : compare a.dot b.dot with
    | lt => rw [hd] at h; cases h
    | gt => rw [hd] at h; cases h
    | eq =>
      rw [hd] at h
      cases a; cases b
      cases cmpProd_eq _ _ hp
      cases Nat.compare_eq_eq.mp hd
      cases cmpListWith_eq cmpTerm cmpTerm_eq _ _ h
      rfl

/-- Membership in a sorted-insert is membership in the cons, for an
equality-faithful comparator. -/
theorem mem_insSorted (f : α → α → Ordering) (hf : ∀ x y, f x y = .eq → x = y)
    (x a : α) (l : List α) : a ∈ insSorted f x l ↔ a = x ∨ a ∈ l := by
  induction l with
  | nil => simp [insSorted]
  | cons y ys ih =>
    unfold insSorted
    cases hxy : f x y with
    | lt =>
      simp only [hxy, List.mem_cons]
    | eq =>
      have hxy2 := hf x y hxy
      subst hxy2
      simp only [hxy, List.mem_cons]
      tauto
    | gt =>
      simp only [hxy, List.mem_cons, ih]
      tauto

/-- Membership in `extSorted` for an equality-faithful comparator. -/
theorem mem_extSorted (f : α → α → Ordering) (hf : ∀ x y, f x y = .eq → x = y)
    (base xs : List α) (a : α) :
    a ∈ extSorted f base xs ↔ a ∈ base ∨ a ∈ xs := by
  induction xs generalizing base with
  | nil => simp [extSorted]
  | cons x rest ih =>
    unfold extSorted at ih ⊢
    rw [List.foldl_cons, ih (insSorted f x base), mem_insSorted f hf]
    simp [List.mem_cons]
    tauto

end LR
namespace LR

/-- No two distinct items of the list share a (production, dot) core. -/
def UniqueCores (items : List Item) : Prop :=
  ∀ a ∈ items, ∀ b ∈ items, a.prod = b.prod → a.dot = b.dot → a = b

/-- The output of `ItemSet::merge` has unique cores. -/
theorem merge_uniqueCores (items : List Item) :
    UniqueCores (ItemSet.merge items) := by
  intro a ha b hb hp hd
  unfold ItemSet.merge at ha hb
  rw [toSorted, mem_extSorted cmpItem cmpItem_eq] at ha hb
  rcases ha with ha | ha
  · cases ha
  rcases hb with hb | hb
  · cases hb
  obtain ⟨ca, hca, haeq⟩ := List.mem_map.mp ha
  obtain ⟨cb, hcb, hbeq⟩ := List.mem_map.mp hb
  have h1 : a.prod = ca.1 := by rw [← haeq]
  have h2 : a.dot = ca.2 := by rw [← haeq]
  have h3 : b.prod = cb.1 := by rw [← hbeq]
  have h4 : b.dot = cb.2 := by rw [← hbeq]
  have hcc : ca = cb := by
    have : (ca.1, ca.2) = (cb.1, cb.2) := by
      rw [← h1, ← h2, ← h3, ← h4, hp, hd]
    calc ca = (ca.1, ca.2) := rfl
    _ = (cb.1, cb.2) := this
    _ = cb := rfl
  rw [← haeq, ← hbeq, hcc]

/-- The output of `ItemSet::closure` has unique cores. -/
theorem closure_uniqueCores (po : ProdOrder) (g : Grammar) (fuel lf : Nat)
    (items : List Item) (st : FirstCache) (C : List Item) (st2 : FirstCache)
    (h : ItemSet.closure po g fuel lf items st = .ok (C, st2)) :
    UniqueCores C := by
  unfold ItemSet.closure at h
  cases hl : ItemSet.closureLoop po g fuel lf items st with
  | error e => rw [hl] at h; cases h
  | ok p =>
    rw [hl] at h
    cases h
    exact merge_uniqueCores p.1

/-- A defined `ItemSet::goto` result has unique cores. -/
theorem goto_uniqueCores (po : ProdOrder) (g : Grammar) (fuel lf : Nat)
    (items : List Item) (tok : Tok) (st : FirstCache) (nis : List Item)
    (st2 : FirstCache)
    (h : ItemSet.goto po g fuel lf items tok st = .ok (some nis, st2)) :
    UniqueCores nis := by
  unfold ItemSet.goto at h
  by_cases hemp : (items.filterMap (fun i => i.goto tok)).isEmpty
  · rw [if_pos hemp] at h; cases h
  · rw [if_neg hemp] at h
    cases hc : ItemSet.closure po g fuel lf
        (toSorted cmpItem (items.filterMap (fun i => i.goto tok))) st with
    | error e => rw [hc] at h; cases h
    | ok p =>
      rw [hc] at h
      cases h
      exact closure_uniqueCores po g fuel lf _ st _ _
        (by rw [hc])

/-- `passTokens` only adds item sets with unique cores. -/
theorem passTokens_uniqueCores (po : ProdOrder) (g : Grammar) (fuel lf : Nat)
    (oldSets : List (List Item)) (frm : Nat) (is : List Item)
    (toks : List Tok) (newSets : List (List Item))
    (gs : List (Nat × List (Tok × Nat))) (st : FirstCache) (out)
    (hnew : ∀ s ∈ newSets, UniqueCores s)
    (h : passTokens po g fuel lf oldSets frm is toks newSets gs st = .ok out) :
    ∀ s ∈ out.1, UniqueCores s := by
  induction toks generalizing newSets gs st with
  | nil =>
    unfold passTokens at h
    cases h
    exact hnew
  | cons tok rest ih =>
    cases hg : ItemSet.goto po g fuel lf is tok st with
    | error e => simp only [passTokens, hg] at h; cases h
    | ok p =>
      obtain ⟨r, st1⟩ := p
      cases r with
      | none =>
        simp only [passTokens, hg] at h
        exact ih newSets gs st1 hnew h
      | some nis =>
        cases hfind : (oldSets ++ newSets).findIdx? (fun x => x = nis) with
        | some dst =>
          simp only [passTokens, hg, hfind] at h
          exact ih newSets _ st1 hnew h
        | none =>
          simp only [passTokens, hg, hfind] at h
          refine ih (newSets ++ [nis]) _ st1 ?_ h
          intro s hs
          rcases List.mem_append.mp hs with hs1 | hs2
          · exact hnew s hs1
          · have : s = nis := by simpa using hs2
            subst this
            exact goto_uniqueCores po g fuel lf is tok st s st1 hg

/-- `passStates` only adds item sets with unique cores. -/
theorem passStates_uniqueCores (po : ProdOrder) (g : Grammar) (fuel lf : Nat)
    (oldSets : List (List Item)) (rows : List (Nat × List Item))
    (newSets : List (List Item)) (gs : List (Nat × List (Tok × Nat)))
    (st : FirstCache) (out)
    (hnew : ∀ s ∈ newSets, UniqueCores s)
    (h : passStates po g fuel lf oldSets rows newSets gs st = .ok out) :
    ∀ s ∈ out.1, UniqueCores s := by
  induction rows generalizing newSets gs st with
  | nil =>
    unfold passStates at h
    cases h
    exact hnew
  | cons e rest ih =>
    obtain ⟨frm, is⟩ := e
    cases hp : passTokens po g fuel lf oldSets frm is g.tokens newSets gs st with
    | error e2 => simp only [passStates, hp] at h; cases h
    | ok q =>
      simp only [passStates, hp] at h
      exact ih q.1 q.2.1 q.2.2
        (passTokens_uniqueCores po g fuel lf oldSets frm is g.tokens
          newSets gs st q hnew hp) h

/-- Every state list produced by the family loop keeps unique cores. -/
theorem famLoop_uniqueCores (po : ProdOrder) (g : Grammar) (fuel lf : Nat)
    (pf : Nat) (sets : List (List Item)) (gs : List (Nat × List (Tok × Nat)))
    (st : FirstCache) (fam : Family) (st2 : FirstCache)
    (hsets : ∀ s ∈ sets, UniqueCores s)
    (h : famLoop po g fuel lf pf sets gs st = .ok (fam, st2)) :
    ∀ s ∈ fam.itemSets, UniqueCores s := by
  induction pf generalizing sets gs st with
  | zero => cases h
  | succ n ih =>
    cases hp : passStates po g fuel lf sets sets.enum [] gs st with
    | error e => simp only [famLoop, hp] at h; cases h
    | ok q =>
      obtain ⟨newSets, gs1, st1⟩ := q
      have hq : ∀ s ∈ newSets, UniqueCores s :=
        passStates_uniqueCores po g fuel lf sets sets.enum [] gs st
          (newSets, gs1, st1) (by intro s hs; cases hs) hp
      by_cases hemp : newSets.isEmpty
      · simp only [famLoop, hp, hemp, if_true] at h
        cases h
        exact hsets
      · simp only [famLoop, hp, hemp, if_false] at h
        refine ih (sets ++ newSets) gs1 st1 ?_ h
        intro s hs
        rcases List.mem_append.mp hs with h1 | h2
        · exact hsets s h1
        · exact hq s h2

/-- The merged half of C5: every item set of a family built by
`Family::from_grammar` has unique cores — no two distinct items share a
(production, dot) core. -/
theorem fromGrammar_uniqueCores (po : ProdOrder) (g : Grammar)
    (fuel lf pf : Nat) (st : FirstCache) (fam : Family) (st2 : FirstCache)
    (h : fromGrammar po g fuel lf pf st = .ok (fam, st2)) :
    ∀ s ∈ fam.itemSets, UniqueCores s := by
  unfold fromGrammar at h
  cases hi : ItemSet.initial po g fuel lf st with
  | error e => rw [hi] at h; cases h
  | ok p =>
    rw [hi] at h
    refine famLoop_uniqueCores po g fuel lf pf [p.1] [] p.2 fam st2 ?_ h
    intro s hs
    have : s = p.1 := by simpa using hs
    subst this
    unfold ItemSet.initial at hi
    cases hpr : prodsOfBase g g.start with
    | nil => rw [hpr] at hi; cases hi
    | cons q rest =>
      cases rest with
      | nil =>
        rw [hpr] at hi
        exact closure_uniqueCores po g fuel lf _ st p.1 p.2 hi
      | cons q2 rest2 => rw [hpr] at hi; cases hi

end LR
